import Mathlib

/-!
Verification of the bruxism telemetry pipeline (dental_force repository).

The development shallowly embeds the data-processing core of the program:

* services/csv_parser.py      : CSVParser.parse (text record normalization)
* services/ble_service.py     : the notification handler of BLEService.start_notify
* services/dashboard_generator.py : episode segmentation and the local
  get_severity_level of generate_dashboard
* services/report_generator.py    : BruxismReportGenerator.calculate_parameters
  and classify_all_parameters
* services/data_storage.py    : DataStorage.add_record, save_session, end_session

Python strings are modelled as List Char, Python floats as exact rationals
(the program only compares and aggregates them; no claim depends on binary
rounding), Python ints as Int, and Python dicts as ordered association lists.
Functions that can raise return Option or Except together with the state at
the moment the exception escapes.
-/

set_option maxRecDepth 8000

/-- ASCII whitespace stripped by the Python str.strip method (the real method
also strips a few unicode spaces, which never occur in this pipeline). -/
def isPySpace (c : Char) : Bool :=
  c = ' ' || c = '\t' || c = '\n' || c = '\r' || c = '\x0b' || c = '\x0c'

/-- Model of the Python str.strip method over character lists. -/
def pyStrip (l : List Char) : List Char :=
  ((l.dropWhile isPySpace).reverse.dropWhile isPySpace).reverse

/-- Model of the Python str.split method with separator a comma: splits into
the (always nonempty) list of comma-free fields. -/
def splitOnComma : List Char → List (List Char)
  | [] => [[]]
  | c :: cs =>
    match splitOnComma cs with
    | [] => [[c]]
    | f :: rest => if c = ',' then [] :: f :: rest else (c :: f) :: rest

/-- Numeric value of a decimal digit character. -/
def digitVal (c : Char) : Nat := c.toNat - 48

/-- Value of a most-significant-first list of decimal digit characters. -/
def decDigitsVal (l : List Char) : Nat :=
  l.foldl (fun a c => 10 * a + digitVal c) 0

/-- Model of Python int parsing of an unsigned digit string: at least one
digit, digits only. (Python also tolerates surrounding whitespace and
underscore separators; neither occurs in this pipeline.) -/
def parsePyNatDigits (l : List Char) : Option Nat :=
  if l ≠ [] ∧ l.all Char.isDigit then some (decDigitsVal l) else none

/-- Model of the Python int constructor on strings: optional sign then digits. -/
def parsePyInt (s : List Char) : Option Int :=
  match s with
  | [] => none
  | c :: rest =>
    if c = '-' then (parsePyNatDigits rest).map (fun n => -(n : Int))
    else if c = '+' then (parsePyNatDigits rest).map (fun n => (n : Int))
    else (parsePyNatDigits (c :: rest)).map (fun n => (n : Int))

/-- Splits a character list at the first decimal point, if any. -/
def splitAtDot : List Char → List Char × Option (List Char)
  | [] => ([], none)
  | c :: cs =>
    if c = '.' then ([], some cs)
    else (c :: (splitAtDot cs).1, (splitAtDot cs).2)

/-- Unsigned part of Python float parsing: digits with an optional decimal
point, at least one digit overall. The value is kept as an exact rational;
the program only ever compares and aggregates these values. (Python also
accepts exponents and the words inf and nan; they never occur here.) -/
def parsePyFloatUnsigned (l : List Char) : Option ℚ :=
  match splitAtDot l with
  | (ip, none) => (parsePyNatDigits ip).map (fun n => (n : ℚ))
  | (ip, some fp) =>
      if ip.all Char.isDigit ∧ fp.all Char.isDigit ∧ (ip ≠ [] ∨ fp ≠ []) then
        some ((decDigitsVal ip : ℚ) + (decDigitsVal fp : ℚ) / (10 : ℚ) ^ fp.length)
      else none

/-- Model of the Python float constructor on strings. -/
def parsePyFloat (s : List Char) : Option ℚ :=
  match s with
  | [] => none
  | c :: rest =>
    if c = '-' then (parsePyFloatUnsigned rest).map (fun q => -q)
    else if c = '+' then parsePyFloatUnsigned rest
    else parsePyFloatUnsigned (c :: rest)

/-- Digit characters of a positive natural number, most significant first.
The first argument is structural-recursion fuel; any fuel at least n works. -/
def natReprAux : Nat → Nat → List Char
  | 0, _ => []
  | fuel + 1, n =>
    if n = 0 then [] else natReprAux fuel (n / 10) ++ [ Nat.digitChar (n % 10) ]

/-- Decimal rendering of a natural number, as produced by Python str. -/
def natRepr (n : Nat) : List Char :=
  if n = 0 then [ '0' ] else natReprAux n n

/-- Decimal rendering of an integer, as produced by Python str. -/
def intRepr (n : Int) : List Char :=
  if n < 0 then '-' :: natRepr n.natAbs else natRepr n.natAbs

/-- Zero padding to width 2 (strftime style field). -/
def pad2 (n : Nat) : List Char :=
  List.replicate (2 - (natRepr n).length) '0' ++ natRepr n

/-- Zero padding to width 4 (year field). -/
def pad4 (n : Nat) : List Char :=
  List.replicate (4 - (natRepr n).length) '0' ++ natRepr n

/-- Zero padding to width 6 (microsecond field). -/
def pad6 (n : Nat) : List Char :=
  List.replicate (6 - (natRepr n).length) '0' ++ natRepr n

/-- Gregorian calendar date from a count of days since 1970-01-01 (the civil
from days algorithm, as used by the Python datetime module internally). -/
def civilFromDays (z0 : Int) : Int × Int × Int :=
  let z := z0 + 719468
  let era := Int.fdiv z 146097
  let doe := z - era * 146097
  let yoe := (doe - doe / 1460 + doe / 36524 - doe / 146096) / 365
  let y := yoe + era * 400
  let doy := doe - (365 * yoe + yoe / 4 - yoe / 100)
  let mp := (5 * doy + 2) / 153
  let d := doy - (153 * mp + 2) / 5 + 1
  let m := mp + (if mp < 10 then 3 else -9)
  (if m ≤ 2 then y + 1 else y, m, d)

/-- ISO-8601 rendering of an epoch instant given in milliseconds, as produced
by datetime.fromtimestamp(ms / 1000.0).isoformat(): the fractional part is
printed (as six microsecond digits) only when it is nonzero. -/
def isoFromMillis (ms : Int) : List Char :=
  let secs := Int.fdiv ms 1000
  let milli := (Int.fmod ms 1000).toNat
  let days := Int.fdiv secs 86400
  let sod := (Int.fmod secs 86400).toNat
  let ymd := civilFromDays days
  pad4 ymd.1.toNat ++ [ '-' ] ++ pad2 ymd.2.1.toNat ++ [ '-' ] ++ pad2 ymd.2.2.toNat
    ++ [ 'T' ] ++ pad2 (sod / 3600) ++ [ ':' ] ++ pad2 (sod % 3600 / 60)
    ++ [ ':' ] ++ pad2 (sod % 60)
    ++ (if milli = 0 then [] else [ '.' ] ++ pad6 (milli * 1000))

/-- Canonical Session Record (the dict built by CSVParser.parse). -/
structure Record where
  sensorId : Int
  force : ℚ
  timestamp : Int
  date : List Char
  event : ℚ
deriving DecidableEq, Repr

/-- Embedding of CSVParser.parse (services/csv_parser.py). The Python code
computes the date with datetime.fromtimestamp, which renders the instant in
the LOCAL timezone of the host; the offset of that timezone from UTC (in
milliseconds) is made explicit as the tzOffsetMs argument. Any exception in
the body (non-numeric field, and so on) is caught and yields None; the
embedding returns none on exactly those inputs. -/
def CSVParser.parse (tzOffsetMs : Int) (csvString : List Char) : Option Record :=
  let s := pyStrip csvString
  if s = [] then none
  else
    let parts := splitOnComma s
    if parts.length < 4 then none
    else
      match parsePyInt (parts.getD 0 []), parsePyFloat (parts.getD 1 []),
            parsePyInt (parts.getD 2 []), parsePyFloat (parts.getD 3 []) with
      | some sensorId, some force, some timestamp, some event =>
          some { sensorId := sensorId, force := force, timestamp := timestamp,
                 date := isoFromMillis (timestamp + tzOffsetMs), event := event }
      | _, _, _, _ => none

/-! ## BLE notification handler (services/ble_service.py)

The hardware frame is 20 bytes holding five little-endian IEEE-754 binary32
values; struct.unpack turns them into the five Python floats below. The
byte-level decoding is not re-modelled: a Frame stands for the already
unpacked quintuple, with each float value carried as an exact rational. -/

structure Frame where
  emaL : ℚ
  eventOnLeft : ℚ
  fL : ℚ
  fR : ℚ
  eventOnRight : ℚ
deriving DecidableEq, Repr

/-- The f-string of the handler for sensor 1: 1,F_L,timestamp_ms,eventOn_left.
The force and event-flag floats are rendered by the Python float repr, whose
text is passed in (fLS, eLS); repr text always re-parses to the same value. -/
def csv_left (fLS : List Char) (timestampMs : Int) (eLS : List Char) : List Char :=
  '1' :: ',' :: (fLS ++ ',' :: (intRepr timestampMs ++ ',' :: eLS))

/-- The f-string of the handler for sensor 2: 2,F_R,timestamp_ms,eventOn_right. -/
def csv_right (fRS : List Char) (timestampMs : Int) (eRS : List Char) : List Char :=
  '2' :: ',' :: (fRS ++ ',' :: (intRepr timestampMs ++ ',' :: eRS))

/-- One notification: the handler emits the left CSV text then the right CSV
text (callback(csv_left); callback(csv_right)). -/
def notification_lines (fLS eLS fRS eRS : List Char) (timestampMs : Int) :
    List (List Char) :=
  [csv_left fLS timestampMs eLS, csv_right fRS timestampMs eRS]

/-- The records appended per notification: the callback (on_ble_data in
ui/main_window.py) parses each CSV text and appends the record when parsing
succeeds. -/
def notification_records (tz : Int) (fLS eLS fRS eRS : List Char)
    (timestampMs : Int) : List Record :=
  (notification_lines fLS eLS fRS eRS timestampMs).filterMap (CSVParser.parse tz)

/-! ## Episode segmentation (services/dashboard_generator.py, generate_dashboard)

A DRow is one row of the per-sensor dataframe sensor_df; its position in the
list is its dataframe index after reset_index(drop=True). The source parses
the date text back into a datetime; the embedding carries the instant
directly as epoch milliseconds. -/

structure DRow where
  force : ℚ
  ts : Int
  event : ℚ
deriving DecidableEq, Repr

/-- Rows flagged as events together with their original dataframe index
(sensor_df[sensor_df[event] == 1.0], original_index = event_rows.index). -/
def event_rows (rows : List DRow) : List (Nat × DRow) :=
  rows.enum.filter (fun p => decide (p.2.event = 1))

/-- Insertion of a row into a timestamp-sorted list, after every row whose
timestamp is not larger (stable insertion). -/
def insert_by_ts (a : Nat × DRow) : List (Nat × DRow) → List (Nat × DRow)
  | [] => [a]
  | b :: bs => if b.2.ts ≤ a.2.ts then b :: insert_by_ts a bs else a :: b :: bs

/-- sort_values(timestamp), modelled as a stable insertion sort; pandas
applies quicksort here, which can permute rows carrying equal timestamps, an
order the source leaves unspecified anyway. -/
def sort_by_ts (l : List (Nat × DRow)) : List (Nat × DRow) :=
  l.foldl (fun acc a => insert_by_ts a acc) []

/-- Accumulating pass of the episode grouping: episode_group is the cumulative
sum of (original_index_diff != 1), so a new group starts exactly when the
original index of a row is not the successor of the previous original index. -/
def episode_groups_aux (prev : Nat × DRow) (cur : List (Nat × DRow))
    (acc : List (Nat × DRow)) : List (List (Nat × DRow)) :=
  match cur with
  | [] => [acc.reverse]
  | p :: ps =>
    if p.1 = prev.1 + 1 then episode_groups_aux p ps (p :: acc)
    else acc.reverse :: episode_groups_aux p ps [p]

/-- groupby(episode_group) of the sorted event rows. -/
def episode_groups : List (Nat × DRow) → List (List (Nat × DRow))
  | [] => []
  | p :: ps => episode_groups_aux p ps [p]

structure Episode where
  ts : Int
  force : ℚ
deriving DecidableEq, Repr

/-- Timestamp of the first member of a group (group[timestamp].iloc[0]). -/
def group_first_ts : List (Nat × DRow) → Int
  | [] => 0
  | p :: _ => p.2.ts

/-- Maximum force of a group (group[force].max()); groups are nonempty, so
the default for the empty list is never reached. -/
def group_max_force : List (Nat × DRow) → ℚ
  | [] => 0
  | p :: ps => ps.foldl (fun a q => max a q.2.force) p.2.force

def mkEpisode (g : List (Nat × DRow)) : Episode :=
  { ts := group_first_ts g, force := group_max_force g }

/-- Demo-mode (short recording) episode grouping. -/
def demo_segment (rows : List DRow) : List Episode :=
  (episode_groups (sort_by_ts (event_rows rows))).map mkEpisode

/-- Millisecond span max(timestamp) - min(timestamp) of the sensor dataframe. -/
def data_duration_ms (rows : List DRow) : Int :=
  match rows with
  | [] => 0
  | r :: rs =>
    (rs.foldl (fun a q => max a q.ts) r.ts) - (rs.foldl (fun a q => min a q.ts) r.ts)

/-- data_duration_hours >= 5 decides overnight mode; the comparison is exact
at five hours = 18000000 ms. An empty dataframe has a NaN duration in pandas
and NaN >= 5 is false, hence the false branch for the empty list. -/
def is_overnight_data (rows : List DRow) : Bool :=
  match rows with
  | [] => false
  | _ :: _ => decide (18000000 ≤ data_duration_ms rows)

/-- STEP 2 of generate_dashboard: overnight keeps every flagged row as its own
event; demo mode groups consecutive flagged rows into episodes. -/
def generate_dashboard_events (rows : List DRow) : List Episode :=
  if is_overnight_data rows then
    (event_rows rows).map (fun p => { ts := p.2.ts, force := p.2.force })
  else demo_segment rows

/-- Feeding episodes back as rows, each flagged with event 1.0 (the
idempotence experiment of the specification, section 8). -/
def episodes_as_rows (eps : List Episode) : List DRow :=
  eps.map (fun e => { force := e.force, ts := e.ts, event := 1 })

/-! ## Severity cascades -/

inductive Severity
  | CRITICAL | SEVERE | MODERATE | MILD | NORMAL
deriving DecidableEq, Repr

/-- Severity branch of BruxismReportGenerator.classify_all_parameters
(services/report_generator.py, lines 109-118). -/
def classify_severity (maxForce meanForce : ℚ) (totalEvents : Nat) : Severity :=
  if maxForce > 12 ∨ meanForce > 8 ∨ totalEvents > 80 then .CRITICAL
  else if maxForce > 10 ∨ meanForce > 7 ∨ totalEvents > 60 then .SEVERE
  else if maxForce > 7 ∨ meanForce > 5 ∨ totalEvents > 40 then .MODERATE
  else if maxForce > 5 ∨ meanForce > 3 ∨ totalEvents > 20 then .MILD
  else .NORMAL

inductive DashSeverity
  | SEVERO | MODERADO | LEVE | NORMAL
deriving DecidableEq, Repr

/-- get_severity_level of generate_dashboard
(services/dashboard_generator.py, lines 103-111); it has no tier above
SEVERO. Argument order follows the Python signature. -/
def get_severity_level (total_events : Nat) (mean_force max_force : ℚ) :
    DashSeverity :=
  if max_force > 10 ∨ mean_force > 7 ∨ total_events > 60 then .SEVERO
  else if max_force > 7 ∨ mean_force > 5 ∨ total_events > 40 then .MODERADO
  else if max_force > 5 ∨ mean_force > 3 ∨ total_events > 20 then .LEVE
  else .NORMAL

/-- Correspondence of the Spanish dashboard labels with the English report
labels. -/
def DashSeverity.toSeverity : DashSeverity → Severity
  | .SEVERO => .SEVERE
  | .MODERADO => .MODERATE
  | .LEVE => .MILD
  | .NORMAL => .NORMAL

/-- Severity cascade exactly as the specification words it (section 4.5). -/
def spec_severity (maxForce meanForce : ℚ) (totalEvents : Nat) : Severity :=
  if maxForce > 12 ∨ meanForce > 8 ∨ totalEvents > 80 then .CRITICAL
  else if maxForce > 10 ∨ meanForce > 7 ∨ totalEvents > 60 then .SEVERE
  else if maxForce > 7 ∨ meanForce > 5 ∨ totalEvents > 40 then .MODERATE
  else if maxForce > 5 ∨ meanForce > 3 ∨ totalEvents > 20 then .MILD
  else .NORMAL

/-- Identification of the four-tier dashboard cascade inside the five-tier
one: everything the full cascade calls CRITICAL lands in SEVERE. -/
def collapse_critical : Severity → Severity
  | .CRITICAL => .SEVERE
  | s => s

/-! ## Temporal parameters and the temporal-pattern cascade
(services/report_generator.py, calculate_parameters and
classify_all_parameters). The report generator works on the raw flagged rows
of one sensor; hours come from the datetime attribute dt.hour. -/

/-- Hour of day (0-23) of an epoch-millisecond instant. -/
def hour_of_millis (ms : Int) : Nat :=
  ((Int.fdiv ms 3600000).fmod 24).toNat

/-- events = df[df[event] == 1.0] of the report generator. -/
def report_events (rows : List DRow) : List DRow :=
  rows.filter (fun r => decide (r.event = 1))

/-- Count of events falling in one hour bucket. -/
def hour_count (events : List DRow) (h : Nat) : Nat :=
  (events.filter (fun r => decide (hour_of_millis r.ts = h))).length

/-- rem_concentration: percentage of events whose hour is 2 or 3. -/
def rem_concentration (events : List DRow) : ℚ :=
  ((events.filter (fun r =>
      decide (hour_of_millis r.ts = 2 ∨ hour_of_millis r.ts = 3))).length : ℚ)
    / (events.length : ℚ) * 100

/-- peak_hour: hourly_counts.idxmax(), the smallest hour attaining the
maximal count (pandas returns the first index attaining the maximum and the
groupby index is sorted ascending). -/
def peak_hour (events : List DRow) : Nat :=
  (List.range 24).foldl
    (fun best h => if hour_count events h > hour_count events best then h else best) 0

/-- peak_hour_events: the count at the peak hour. -/
def peak_hour_events (events : List DRow) : Nat :=
  hour_count events (peak_hour events)

/-- Percentage of events whose hour lies in the two-hour window starting at h. -/
def window_concentration (events : List DRow) (h : Nat) : ℚ :=
  ((events.filter (fun r =>
      decide (hour_of_millis r.ts = h ∨ hour_of_millis r.ts = (h + 1) % 24))).length : ℚ)
    / (events.length : ℚ) * 100

/-- temporal_concentration: maximum two-hour-window percentage over the 24
windows (h, h+1 mod 24), starting the running maximum at 0. -/
def temporal_concentration (events : List DRow) : ℚ :=
  (List.range 24).foldl (fun m h => max m (window_concentration events h)) 0

inductive TemporalPattern
  | REM_DOMINANT | DISTRIBUTED | EARLY_NIGHT | LATE_NIGHT | NO_EVENTS
deriving DecidableEq, Repr

/-- Temporal-pattern branch of classify_all_parameters (lines 121-128). The
Python guard reads: if self.peak_hour and self.peak_hour <= 2. It tests the
TRUTHINESS of peak_hour, so the hour 0 is falsy and falls through to
LATE_NIGHT; the embedding renders that as peakHour not equal 0. -/
def classify_temporal (remConc tempConc : ℚ) (peakHour : Nat) : TemporalPattern :=
  if remConc > 60 then .REM_DOMINANT
  else if tempConc < 30 then .DISTRIBUTED
  else if ¬ peakHour = 0 ∧ peakHour ≤ 2 then .EARLY_NIGHT
  else .LATE_NIGHT

/-- Temporal pattern computed by the report generator on the flagged rows of
one sensor (NO_EVENTS is the empty-input default of calculate_parameters). -/
def temporal_pattern_of (events : List DRow) : TemporalPattern :=
  if events.length = 0 then .NO_EVENTS
  else classify_temporal (rem_concentration events) (temporal_concentration events)
        (peak_hour events)

/-- Temporal-pattern cascade exactly as the specification words it (section
4.5): remConcentration above 60 gives REM_DOMINANT; else temporalConcentration
below 30 gives DISTRIBUTED; else peakHour at most 2 gives EARLY_NIGHT; else
LATE_NIGHT. -/
def spec_temporal (remConc tempConc : ℚ) (peakHour : Nat) : TemporalPattern :=
  if remConc > 60 then .REM_DOMINANT
  else if tempConc < 30 then .DISTRIBUTED
  else if peakHour ≤ 2 then .EARLY_NIGHT
  else .LATE_NIGHT

/-! ## Session store (services/data_storage.py)

Python dicts are modelled as insertion-ordered association lists with unique
keys; dict assignment overwrites in place or appends a new key at the end,
and pop removes a key. Exceptions are modelled with Except, returning the
state as it is at the moment the exception escapes. -/

inductive Val
  | i (n : Int)
  | q (x : ℚ)
  | s (text : List Char)
deriving DecidableEq, Repr

abbrev Dict := List (List Char × Val)

def Dict.containsKey (d : Dict) (k : List Char) : Bool :=
  d.any (fun p => decide (p.1 = k))

def Dict.lookupKey : Dict → List Char → Option Val
  | [], _ => none
  | p :: ps, k => if p.1 = k then some p.2 else Dict.lookupKey ps k

/-- dict.pop(k): removal of a key. -/
def Dict.eraseKey (d : Dict) (k : List Char) : Dict :=
  d.filter (fun p => decide (¬ p.1 = k))

/-- dict assignment d[k] = v: overwrite in place when the key exists,
otherwise append the new key at the end. -/
def Dict.insertKey (d : Dict) (k : List Char) (v : Val) : Dict :=
  if Dict.containsKey d k then d.map (fun p => if p.1 = k then (k, v) else p)
  else d ++ [(k, v)]

/-- Summary computed by save_session. The end field is named ending because
end is a Lean keyword. -/
structure Summary where
  totalReadings : Nat
  avgForce : ℚ
  maxForce : ℚ
  minForce : ℚ
  start : Option Val
  ending : Option Val
deriving DecidableEq, Repr

structure SessionRow where
  created_at : List Char
  summary : Summary
  data : List Dict
deriving DecidableEq, Repr

/-- Half-to-even rounding of a rational to an integer. -/
def round_half_even (y : ℚ) : Int :=
  let f := Rat.floor y
  let frac := y - (f : ℚ)
  if frac < 1/2 then f
  else if frac > 1/2 then f + 1
  else if f % 2 = 0 then f else f + 1

/-- Model of round(x, 2). Python rounds the binary double half to even; on the
exact rationals used here the two agree except on ties at the third decimal
that are not exactly representable in binary, which no claim exercises. -/
def py_round2 (x : ℚ) : ℚ :=
  (round_half_even (x * 100) : ℚ) / 100

def Val.asNum : Val → Option ℚ
  | .i n => some (n : ℚ)
  | .q x => some x
  | .s _ => none

/-- forces = [r[force] for r in data]; a missing key raises KeyError and a
non-numeric value makes the later sum raise TypeError, both escaping the
method. -/
def forcesOf (data : List Dict) : Option (List ℚ) :=
  data.mapM (fun r => (Dict.lookupKey r "force".data).bind Val.asNum)

def listMax : List ℚ → ℚ
  | [] => 0
  | x :: xs => xs.foldl max x

def listMin : List ℚ → ℚ
  | [] => 0
  | x :: xs => xs.foldl min x

inductive PyErr
  | valueError | keyOrTypeError
deriving DecidableEq, Repr

structure DataStorage where
  current_session_data : List Dict
  session_active : Bool
  current_session_id : Option Int
  db_sessions : List SessionRow
deriving DecidableEq, Repr

/-- r.get(key) of the first or last record. -/
def firstDate (data : List Dict) : Option Val :=
  match data with
  | [] => none
  | r :: _ => Dict.lookupKey r "date".data

def lastDate (data : List Dict) : Option Val :=
  match data.getLast? with
  | none => none
  | some r => Dict.lookupKey r "date".data

/-- Embedding of DataStorage.save_session. Raising ValueError on an empty
buffer, or KeyError/TypeError while collecting forces, leaves the state
untouched: both raises happen before any mutation. On success the row is
inserted, the buffer is cleared and (id, summary) is returned; the row id
models sqlite lastrowid as one past the current row count. -/
def save_session (st : DataStorage) (nowIso : List Char) :
    DataStorage × Except PyErr (Nat × Summary) :=
  if st.current_session_data = [] then (st, .error .valueError)
  else
    match forcesOf st.current_session_data with
    | none => (st, .error .keyOrTypeError)
    | some forces =>
      let summary : Summary :=
        { totalReadings := forces.length
          avgForce := py_round2 (forces.sum / (forces.length : ℚ))
          maxForce := py_round2 (listMax forces)
          minForce := py_round2 (listMin forces)
          start := firstDate st.current_session_data
          ending := lastDate st.current_session_data }
      let row : SessionRow :=
        { created_at := nowIso, summary := summary, data := st.current_session_data }
      ({ st with current_session_data := [], db_sessions := st.db_sessions ++ [row] },
       .ok (st.db_sessions.length + 1, summary))

/-- Embedding of DataStorage.end_session. In the save branch the source runs
save_session() first; if that raises, the exception escapes BEFORE the line
session_active = False runs, so the session stays marked active. -/
def end_session (st : DataStorage) (nowIso : List Char) (save : Bool) :
    DataStorage × Except PyErr (Option (Nat × Summary)) :=
  if st.session_active = false then (st, .ok none)
  else if save then
    match save_session st nowIso with
    | (st1, .error e) => (st1, .error e)
    | (st1, .ok r) => ({ st1 with session_active := false }, .ok (some r))
  else
    ({ st with current_session_data := [], session_active := false }, .ok none)

/-- Arbitrary Python value passed to add_record: a dict or anything else. -/
inductive PyObj
  | dict (d : Dict)
  | nonDict
deriving DecidableEq, Repr

/-- datetime.utcfromtimestamp(v).isoformat() inside add_record, with the
except branch falling back to the current time text. The timestamp is in
seconds here; a fractional value is rendered to millisecond precision (the
source keeps microseconds, which no claim inspects). -/
def date_from_ts_val (nowIso : List Char) : Val → Val
  | .i n => .s (isoFromMillis (1000 * n))
  | .q x => .s (isoFromMillis (Rat.floor (1000 * x)))
  | .s _ => .s nowIso

/-- First in-place step of add_record: record[force] = record.pop(value) when
force is absent and value present. -/
def fix_force (r : Dict) : Dict :=
  if ¬ Dict.containsKey r "force".data ∧ Dict.containsKey r "value".data then
    match Dict.lookupKey r "value".data with
    | some v => Dict.insertKey (Dict.eraseKey r "value".data) "force".data v
    | none => r
  else r

/-- Second in-place step of add_record: derive date from timestamp when date
is absent and timestamp present. -/
def fix_date (nowIso : List Char) (r : Dict) : Dict :=
  if ¬ Dict.containsKey r "date".data ∧ Dict.containsKey r "timestamp".data then
    match Dict.lookupKey r "timestamp".data with
    | some v => Dict.insertKey r "date".data (date_from_ts_val nowIso v)
    | none => r
  else r

/-- Third in-place step of add_record: default event to 0.0 when absent. -/
def fix_event (r : Dict) : Dict :=
  if ¬ Dict.containsKey r "event".data then Dict.insertKey r "event".data (.q 0)
  else r

/-- The in-place normalization that add_record applies to the dict handed in
by the caller, in source order. -/
def add_record_fix (nowIso : List Char) (r : Dict) : Dict :=
  fix_event (fix_date nowIso (fix_force r))

/-- Embedding of DataStorage.add_record: a non-dict argument returns at once;
a dict is normalized in place, the same object is appended to the live
buffer, and an inactive session is (re)activated. -/
def add_record (st : DataStorage) (nowIso : List Char) (nowId : Int)
    (obj : PyObj) : DataStorage :=
  match obj with
  | .nonDict => st
  | .dict r =>
    let r3 := add_record_fix nowIso r
    let st1 := { st with current_session_data := st.current_session_data ++ [r3] }
    if st1.session_active then st1
    else { st1 with session_active := true, current_session_id := some nowId }


/-! ## Specification-side notions for the episode grouping (claim C1)

The claim describes the demo-mode grouping as: sort the flagged rows by
timestamp, then merge maximal runs of rows whose original indices are
consecutive. The notions below formalize runs and maximality; chunks_cont is
a proof-side reformulation of the accumulating pass of episode_groups_aux. -/

/-- Continuation chunking: given the original index of the row standing just
before, the still-open run continuing it, and the closed chunks after it. -/
def chunks_cont (prev : Nat) : List (Nat × DRow) →
    List (Nat × DRow) × List (List (Nat × DRow))
  | [] => ([], [])
  | p :: ps =>
    if p.1 = prev + 1 then
      (p :: (chunks_cont p.1 ps).1, (chunks_cont p.1 ps).2)
    else
      ([], (p :: (chunks_cont p.1 ps).1) :: (chunks_cont p.1 ps).2)

/-- Index of the last row of a chunk, or the given default when it is empty. -/
def last_idx (prev : Nat) (g : List (Nat × DRow)) : Nat :=
  match g.getLast? with
  | none => prev
  | some a => a.1

/-- No chunk can be merged leftwards: the first row of each chunk is not the
index successor of the row standing just before it (i threads the index of
that preceding row). -/
def chunks_maximal : Nat → List (List (Nat × DRow)) → Prop
  | _, [] => True
  | i, g :: gs => (∀ b ∈ g.head?, ¬ b.1 = i + 1) ∧ chunks_maximal (last_idx i g) gs

/-- A chunk is a run of consecutively indexed rows. -/
def chunk_run (g : List (Nat × DRow)) : Prop :=
  List.Chain' (fun a b => b.1 = a.1 + 1) g

/-- A chunk is a run of consecutively indexed rows continuing index i. -/
def run_from (i : Nat) (g : List (Nat × DRow)) : Prop :=
  g.map (fun p => p.1) = List.range' (i + 1) g.length

/-! # Theorems

Claim-level theorems and the supporting lemmas, in dependency order. -/

theorem splitOnComma_ne_nil (l : List Char) : splitOnComma l ≠ [] := by
  cases l with
  | nil => simp [splitOnComma]
  | cons c cs =>
    unfold splitOnComma
    cases h : splitOnComma cs with
    | nil => simp
    | cons f rest => by_cases hc : c = ',' <;> simp [hc]

/-- Claim C4 (corrected): a line with exactly three comma-separated fields is
rejected by CSVParser.parse, whatever the fields hold: the parser demands at
least four fields and never defaults the event flag. -/
theorem three_field_line_amended (tz : Int) (s : List Char)
    (h3 : (splitOnComma (pyStrip s)).length = 3) :
    CSVParser.parse tz s = none := by
  unfold CSVParser.parse
  by_cases he : pyStrip s = []
  · simp [he]
  · simp only [if_neg he]
    rw [if_pos (by omega)]

/-- Claim C4, counterexample to the claim as stated: the well-formed
three-field line 1,3.5,1000 produces no record at all, not a record with
event 0.0. -/
theorem three_field_line_counterexample :
    CSVParser.parse 0 "1,3.5,1000".data = none := by
  with_unfolding_all decide

/-- Witness for three_field_line_amended at the concrete line 1,3.5,1000. -/
theorem three_field_line_witness :
    (splitOnComma (pyStrip "1,3.5,1000".data)).length = 3 ∧
    CSVParser.parse 7 "1,3.5,1000".data = none :=
  ⟨by decide, three_field_line_amended 7 "1,3.5,1000".data (by decide)⟩

/-- Claim C6 (confirmed): malformed text lines produce no record (the Python
body catches every exception, modelled by totality of the Option-valued
embedding): any line with fewer than four comma-separated fields, any line
with a non-parsing numeric field, and in particular the lines abc, the empty
line, and 1,2. -/
theorem malformed_lines_no_record (tz : Int) :
    (∀ s : List Char, (splitOnComma (pyStrip s)).length < 4 →
        CSVParser.parse tz s = none) ∧
    (∀ s : List Char,
        (parsePyInt ((splitOnComma (pyStrip s)).getD 0 []) = none ∨
         parsePyFloat ((splitOnComma (pyStrip s)).getD 1 []) = none ∨
         parsePyInt ((splitOnComma (pyStrip s)).getD 2 []) = none ∨
         parsePyFloat ((splitOnComma (pyStrip s)).getD 3 []) = none) →
        CSVParser.parse tz s = none) ∧
    CSVParser.parse tz "abc".data = none ∧
    CSVParser.parse tz "".data = none ∧
    CSVParser.parse tz "1,2".data = none := by
  refine ⟨?_, ?_, rfl, rfl, rfl⟩
  · intro s hlen
    unfold CSVParser.parse
    by_cases he : pyStrip s = []
    · simp [he]
    · simp only [if_neg he]
      rw [if_pos hlen]
  · intro s h
    unfold CSVParser.parse
    by_cases he : pyStrip s = []
    · simp [he]
    · simp only [if_neg he]
      by_cases hlen : (splitOnComma (pyStrip s)).length < 4
      · rw [if_pos hlen]
      · rw [if_neg hlen]
        rcases h with h | h | h | h <;>
        · cases h1 : parsePyInt ((splitOnComma (pyStrip s)).getD 0 []) <;>
          cases h2 : parsePyFloat ((splitOnComma (pyStrip s)).getD 1 []) <;>
          cases h3 : parsePyInt ((splitOnComma (pyStrip s)).getD 2 []) <;>
          cases h4 : parsePyFloat ((splitOnComma (pyStrip s)).getD 3 []) <;>
          simp_all

/-- Witness for malformed_lines_no_record (its universally quantified parts
have implication hypotheses): the short line abc and the non-numeric field x
in 1,x,2,3. -/
theorem malformed_lines_no_record_witness :
    CSVParser.parse 0 "abc".data = none ∧ CSVParser.parse 0 "1,x,2,3".data = none :=
  ⟨(malformed_lines_no_record 0).1 "abc".data (by decide),
   (malformed_lines_no_record 0).2.1 "1,x,2,3".data (Or.inr (Or.inl (by decide)))⟩

/-- Claim C8 (confirmed): the reference line 1,3.5,1000,1.0 normalizes to the
record (sensorId 1, force 3.5, timestamp 1000, event 1.0) with the date text
1970-01-01T00:00:01, on a host whose local timezone is UTC (the source uses
datetime.fromtimestamp, which renders local time; the specification asserts
the UTC rendering). -/
theorem parse_reference_record (tz : Int) (h : tz = 0) :
    CSVParser.parse tz "1,3.5,1000,1.0".data =
      some { sensorId := 1, force := 7/2, timestamp := 1000,
             date := "1970-01-01T00:00:01".data, event := 1 } := by
  subst h
  with_unfolding_all decide

/-- Witness for parse_reference_record at offset zero. -/
theorem parse_reference_record_witness :
    CSVParser.parse 0 "1,3.5,1000,1.0".data =
      some { sensorId := 1, force := 7/2, timestamp := 1000,
             date := "1970-01-01T00:00:01".data, event := 1 } :=
  parse_reference_record 0 rfl

/-- Claim C2, counterexample to the claim as stated: at maxForce 13 (meanForce
0, one event) the report cascade answers CRITICAL but the dashboard function
get_severity_level answers SEVERO: the dashboard does not reproduce the
five-tier threshold cascade, having no tier above SEVERE. -/
theorem dashboard_severity_counterexample :
    (get_severity_level 1 0 13).toSeverity ≠ classify_severity 13 0 1 ∧
    classify_severity 13 0 1 = .CRITICAL ∧
    get_severity_level 1 0 13 = .SEVERO := by
  refine ⟨?_, ?_, ?_⟩ <;> with_unfolding_all decide

/-- Claim C2 (corrected): classify_all_parameters reproduces the specified
five-tier severity cascade exactly; the only other severity assignment,
get_severity_level in the dashboard, implements just the lower four tiers
with identical thresholds, mapping every CRITICAL input to SEVERO. -/
theorem severity_cascades_amended (maxF meanF : ℚ) (total : Nat) :
    classify_severity maxF meanF total = spec_severity maxF meanF total ∧
    (get_severity_level total meanF maxF).toSeverity
      = collapse_critical (spec_severity maxF meanF total) := by
  refine ⟨rfl, ?_⟩
  by_cases c2 : maxF > 10 ∨ meanF > 7 ∨ total > 60
  · by_cases c1 : maxF > 12 ∨ meanF > 8 ∨ total > 80 <;>
      simp [get_severity_level, spec_severity, collapse_critical,
            DashSeverity.toSeverity, c1, c2]
  · have c1 : ¬ (maxF > 12 ∨ meanF > 8 ∨ total > 80) := by
      rintro (h | h | h)
      · exact c2 (Or.inl (by linarith))
      · exact c2 (Or.inr (Or.inl (by linarith)))
      · exact c2 (Or.inr (Or.inr (by omega)))
    by_cases c3 : maxF > 7 ∨ meanF > 5 ∨ total > 40
    · simp [get_severity_level, spec_severity, collapse_critical,
            DashSeverity.toSeverity, c1, c2, c3]
    · by_cases c4 : maxF > 5 ∨ meanF > 3 ∨ total > 20 <;>
        simp [get_severity_level, spec_severity, collapse_critical,
              DashSeverity.toSeverity, c1, c2, c3, c4]

/-- Claim C3 (code bug at peak hour 0): three flagged rows all inside hour 0
of the night give rem concentration 0, temporal concentration 100 and peak
hour 0; the specified cascade answers EARLY_NIGHT (peakHour at most 2), but
classify_all_parameters answers LATE_NIGHT, because its guard
(if self.peak_hour and self.peak_hour <= 2) treats the hour 0 as falsy. On
every peak hour other than 0 the code and the specified cascade agree. -/
theorem midnight_peak_hour_bug :
    temporal_pattern_of
      (report_events [⟨4, 0, 1⟩, ⟨4, 60000, 1⟩, ⟨4, 120000, 1⟩]) = .LATE_NIGHT ∧
    peak_hour (report_events [⟨4, 0, 1⟩, ⟨4, 60000, 1⟩, ⟨4, 120000, 1⟩]) = 0 ∧
    spec_temporal
      (rem_concentration (report_events [⟨4, 0, 1⟩, ⟨4, 60000, 1⟩, ⟨4, 120000, 1⟩]))
      (temporal_concentration (report_events [⟨4, 0, 1⟩, ⟨4, 60000, 1⟩, ⟨4, 120000, 1⟩]))
      (peak_hour (report_events [⟨4, 0, 1⟩, ⟨4, 60000, 1⟩, ⟨4, 120000, 1⟩]))
      = .EARLY_NIGHT := by
  refine ⟨?_, ?_, ?_⟩ <;> with_unfolding_all decide

/-- Away from the hour 0 the temporal cascade of the code agrees with the
specified one; the divergence of midnight_peak_hour_bug is the whole bug. -/
theorem classify_temporal_agrees_off_midnight (remConc tempConc : ℚ) (ph : Nat)
    (hph : ¬ ph = 0) :
    classify_temporal remConc tempConc ph = spec_temporal remConc tempConc ph := by
  unfold classify_temporal spec_temporal
  by_cases h1 : remConc > 60
  · simp [h1]
  · by_cases h2 : tempConc < 30
    · simp [h1, h2]
    · by_cases h3 : ph ≤ 2 <;> simp [h1, h2, h3, hph]

/-! ## Dictionary lemmas for the session store -/

theorem containsKey_cons (p : List Char × Val) (ps : Dict) (k : List Char) :
    Dict.containsKey (p :: ps) k = (decide (p.1 = k) || Dict.containsKey ps k) := rfl

theorem containsKey_ex (d : Dict) (k : List Char)
    (hc : Dict.containsKey d k = true) : ∃ v, Dict.lookupKey d k = some v := by
  induction d with
  | nil => simp [Dict.containsKey] at hc
  | cons p ps ih =>
    by_cases hp : p.1 = k
    · exact ⟨p.2, by simp [Dict.lookupKey, hp]⟩
    · rw [containsKey_cons] at hc
      simp only [hp, decide_False, Bool.false_or] at hc
      obtain ⟨v, hv⟩ := ih hc
      exact ⟨v, by simp [Dict.lookupKey, hp, hv]⟩

theorem lookup_overwrite (d : Dict) (k : List Char) (v : Val)
    (hc : Dict.containsKey d k = true) :
    Dict.lookupKey (d.map (fun p => if p.1 = k then (k, v) else p)) k = some v := by
  induction d with
  | nil => simp [Dict.containsKey] at hc
  | cons p ps ih =>
    by_cases hp : p.1 = k
    · simp [Dict.lookupKey, hp]
    · rw [containsKey_cons] at hc
      simp only [hp, decide_False, Bool.false_or] at hc
      simp [Dict.lookupKey, hp, ih hc]

theorem lookup_append_single (d : Dict) (k : List Char) (v : Val)
    (hc : Dict.containsKey d k = false) :
    Dict.lookupKey (d ++ [(k, v)]) k = some v := by
  induction d with
  | nil => simp [Dict.lookupKey]
  | cons p ps ih =>
    rw [containsKey_cons] at hc
    simp only [Bool.or_eq_false_iff, decide_eq_false_iff_not] at hc
    simp [Dict.lookupKey, hc.1, ih hc.2]

theorem lookupKey_insertKey_self (d : Dict) (k : List Char) (v : Val) :
    Dict.lookupKey (Dict.insertKey d k v) k = some v := by
  unfold Dict.insertKey
  by_cases hc : Dict.containsKey d k = true
  · rw [if_pos hc]
    exact lookup_overwrite d k v hc
  · rw [if_neg hc]
    exact lookup_append_single d k v (by simpa using hc)

theorem lookupKey_cons (q : List Char × Val) (qs : Dict) (kk : List Char) :
    Dict.lookupKey (q :: qs) kk
      = if q.1 = kk then some q.2 else Dict.lookupKey qs kk := rfl

theorem lookup_overwrite_ne (ps : Dict) (k : List Char) (v : Val)
    (k' : List Char) (h : ¬ k' = k) :
    Dict.lookupKey (ps.map (fun p => if p.1 = k then (k, v) else p)) k'
      = Dict.lookupKey ps k' := by
  induction ps with
  | nil => rfl
  | cons p ps ih =>
    by_cases hp : p.1 = k
    · rw [List.map_cons, if_pos hp, lookupKey_cons, lookupKey_cons,
          if_neg (fun e => h e.symm), if_neg (fun e : p.1 = k' => h (by rw [← e, hp]))]
      exact ih
    · rw [List.map_cons, if_neg hp, lookupKey_cons, lookupKey_cons]
      by_cases hq : p.1 = k'
      · rw [if_pos hq, if_pos hq]
      · rw [if_neg hq, if_neg hq]
        exact ih

theorem lookup_append_ne (d : Dict) (k : List Char) (v : Val)
    (k' : List Char) (h : ¬ k' = k) :
    Dict.lookupKey (d ++ [(k, v)]) k' = Dict.lookupKey d k' := by
  induction d with
  | nil =>
    show (if k = k' then some v else Dict.lookupKey [] k') = Dict.lookupKey [] k'
    rw [if_neg (fun e => h e.symm)]
  | cons p ps ih =>
    rw [List.cons_append, lookupKey_cons, lookupKey_cons]
    by_cases hq : p.1 = k'
    · rw [if_pos hq, if_pos hq]
    · rw [if_neg hq, if_neg hq]
      exact ih

theorem lookupKey_insertKey_ne (d : Dict) (k : List Char) (v : Val)
    (k' : List Char) (h : ¬ k' = k) :
    Dict.lookupKey (Dict.insertKey d k v) k' = Dict.lookupKey d k' := by
  unfold Dict.insertKey
  by_cases hc : Dict.containsKey d k = true
  · rw [if_pos hc]
    exact lookup_overwrite_ne d k v k' h
  · rw [if_neg hc]
    exact lookup_append_ne d k v k' h

theorem containsKey_overwrite (ps : Dict) (k : List Char) (v : Val)
    (k' : List Char) (h : ¬ k' = k) :
    Dict.containsKey (ps.map (fun p => if p.1 = k then (k, v) else p)) k'
      = Dict.containsKey ps k' := by
  induction ps with
  | nil => rfl
  | cons p ps ih =>
    by_cases hp : p.1 = k
    · rw [List.map_cons, if_pos hp, containsKey_cons, containsKey_cons, ih]
      have e1 : decide (k = k') = false :=
        decide_eq_false (fun e => h e.symm)
      have e2 : decide (p.1 = k') = false :=
        decide_eq_false (fun e : p.1 = k' => h (by rw [← e, hp]))
      rw [e1, e2]
    · rw [List.map_cons, if_neg hp, containsKey_cons, containsKey_cons, ih]

theorem containsKey_append_single (d : Dict) (k : List Char) (v : Val)
    (k' : List Char) : Dict.containsKey (d ++ [(k, v)]) k'
      = (Dict.containsKey d k' || decide (k = k')) := by
  induction d with
  | nil => simp [Dict.containsKey]
  | cons p ps ih =>
    rw [List.cons_append, containsKey_cons, containsKey_cons, ih, Bool.or_assoc]

theorem containsKey_insertKey_self (d : Dict) (k : List Char) (v : Val) :
    Dict.containsKey (Dict.insertKey d k v) k = true := by
  unfold Dict.insertKey
  by_cases hc : Dict.containsKey d k = true
  · rw [if_pos hc]
    obtain ⟨w, hw⟩ := containsKey_ex d k hc
    clear hw
    induction d with
    | nil => simp [Dict.containsKey] at hc
    | cons p ps ih =>
      rw [containsKey_cons] at hc
      by_cases hp : p.1 = k
      · rw [List.map_cons, if_pos hp, containsKey_cons]
        simp
      · rw [decide_eq_false hp, Bool.false_or] at hc
        rw [List.map_cons, if_neg hp, containsKey_cons, ih hc, Bool.or_true]
  · rw [if_neg hc, containsKey_append_single]
    simp

theorem containsKey_insertKey_ne (d : Dict) (k : List Char) (v : Val)
    (k' : List Char) (h : ¬ k' = k) :
    Dict.containsKey (Dict.insertKey d k v) k' = Dict.containsKey d k' := by
  unfold Dict.insertKey
  by_cases hc : Dict.containsKey d k = true
  · rw [if_pos hc]
    exact containsKey_overwrite d k v k' h
  · rw [if_neg hc, containsKey_append_single,
        decide_eq_false (fun e => h e.symm), Bool.or_false]

theorem containsKey_eraseKey_self (d : Dict) (k : List Char) :
    Dict.containsKey (Dict.eraseKey d k) k = false := by
  induction d with
  | nil => rfl
  | cons p ps ih =>
    rw [Dict.eraseKey, List.filter_cons]
    by_cases hp : p.1 = k
    · rw [if_neg (by simp [hp])]
      simpa [Dict.eraseKey] using ih
    · rw [if_pos (by simp [hp]), containsKey_cons, decide_eq_false hp, Bool.false_or]
      simpa [Dict.eraseKey] using ih

theorem lookupKey_eraseKey_ne (d : Dict) (k k' : List Char) (h : ¬ k' = k) :
    Dict.lookupKey (Dict.eraseKey d k) k' = Dict.lookupKey d k' := by
  induction d with
  | nil => rfl
  | cons p ps ih =>
    rw [Dict.eraseKey, List.filter_cons]
    by_cases hp : p.1 = k
    · rw [if_neg (by simp [hp]), lookupKey_cons,
          if_neg (fun e : p.1 = k' => h (by rw [← e, hp]))]
      simpa [Dict.eraseKey] using ih
    · rw [if_pos (by simp [hp]), lookupKey_cons, lookupKey_cons]
      by_cases hq : p.1 = k'
      · rw [if_pos hq, if_pos hq]
      · rw [if_neg hq, if_neg hq]
        simpa [Dict.eraseKey] using ih

theorem containsKey_eraseKey_ne (d : Dict) (k k' : List Char) (h : ¬ k' = k) :
    Dict.containsKey (Dict.eraseKey d k) k' = Dict.containsKey d k' := by
  induction d with
  | nil => rfl
  | cons p ps ih =>
    rw [Dict.eraseKey, List.filter_cons]
    by_cases hp : p.1 = k
    · rw [if_neg (by simp [hp]), containsKey_cons,
          decide_eq_false (fun e : p.1 = k' => h (by rw [← e, hp])), Bool.false_or]
      simpa [Dict.eraseKey] using ih
    · rw [if_pos (by simp [hp]), containsKey_cons, containsKey_cons]
      have ih' : Dict.containsKey (List.filter (fun p => decide ¬(p.1 = k)) ps) k'
          = Dict.containsKey ps k' := by simpa [Dict.eraseKey] using ih
      rw [ih']

/-! ## The three in-place steps of add_record -/

theorem fix_force_preserves (r : Dict) (k : List Char)
    (h1 : ¬ k = "force".data) (h2 : ¬ k = "value".data) :
    Dict.containsKey (fix_force r) k = Dict.containsKey r k ∧
    Dict.lookupKey (fix_force r) k = Dict.lookupKey r k := by
  unfold fix_force
  split
  · rename_i hcond
    obtain ⟨v, hv⟩ := containsKey_ex r "value".data hcond.2
    rw [hv]
    exact ⟨by rw [containsKey_insertKey_ne _ _ _ _ h1, containsKey_eraseKey_ne _ _ _ h2],
           by rw [lookupKey_insertKey_ne _ _ _ _ h1, lookupKey_eraseKey_ne _ _ _ h2]⟩
  · exact ⟨rfl, rfl⟩

theorem fix_date_preserves (nowIso : List Char) (r : Dict) (k : List Char)
    (h1 : ¬ k = "date".data) :
    Dict.containsKey (fix_date nowIso r) k = Dict.containsKey r k ∧
    Dict.lookupKey (fix_date nowIso r) k = Dict.lookupKey r k := by
  unfold fix_date
  split
  · rename_i hcond
    obtain ⟨v, hv⟩ := containsKey_ex r "timestamp".data hcond.2
    rw [hv]
    exact ⟨containsKey_insertKey_ne _ _ _ _ h1, lookupKey_insertKey_ne _ _ _ _ h1⟩
  · exact ⟨rfl, rfl⟩

theorem fix_event_preserves (r : Dict) (k : List Char)
    (h1 : ¬ k = "event".data) :
    Dict.containsKey (fix_event r) k = Dict.containsKey r k ∧
    Dict.lookupKey (fix_event r) k = Dict.lookupKey r k := by
  unfold fix_event
  split
  · exact ⟨containsKey_insertKey_ne _ _ _ _ h1, lookupKey_insertKey_ne _ _ _ _ h1⟩
  · exact ⟨rfl, rfl⟩

/-- Claim C10 (confirmed): add_record silently ignores a non-dict argument
leaving the whole store unchanged; for a dict it appends exactly the
normalized dict (the mutation of the very object the caller passed, modelled
by the pure add_record_fix), which renames value to force, derives date from
timestamp when date is absent and timestamp present, and defaults event to
0.0 when absent. -/
theorem add_record_effects (st : DataStorage) (nowIso : List Char) (nowId : Int)
    (r : Dict) :
    add_record st nowIso nowId .nonDict = st ∧
    (add_record st nowIso nowId (.dict r)).current_session_data
      = st.current_session_data ++ [add_record_fix nowIso r] ∧
    (Dict.containsKey r "force".data = false →
      Dict.containsKey r "value".data = true →
      Dict.lookupKey (add_record_fix nowIso r) "force".data
          = Dict.lookupKey r "value".data ∧
      Dict.containsKey (add_record_fix nowIso r) "value".data = false) ∧
    (Dict.containsKey r "date".data = false →
      Dict.containsKey r "timestamp".data = true →
      ∀ v, Dict.lookupKey r "timestamp".data = some v →
        Dict.lookupKey (add_record_fix nowIso r) "date".data
          = some (date_from_ts_val nowIso v)) ∧
    (Dict.containsKey r "date".data = false →
      Dict.containsKey r "timestamp".data = false →
      Dict.containsKey (add_record_fix nowIso r) "date".data = false) ∧
    (Dict.containsKey r "event".data = false →
      Dict.lookupKey (add_record_fix nowIso r) "event".data = some (.q 0)) := by
  refine ⟨rfl, ?_, ?_, ?_, ?_, ?_⟩
  · by_cases h : st.session_active <;> simp [add_record, h]
  · intro hforce hvalue
    obtain ⟨v, hv⟩ := containsKey_ex r "value".data hvalue
    have hcond : (¬ Dict.containsKey r "force".data = true) ∧
        Dict.containsKey r "value".data = true := ⟨by simp [hforce], hvalue⟩
    have hF1 : Dict.lookupKey (fix_force r) "force".data = some v := by
      unfold fix_force
      rw [if_pos hcond, hv]
      exact lookupKey_insertKey_self _ _ _
    have hF2 : Dict.containsKey (fix_force r) "value".data = false := by
      unfold fix_force
      rw [if_pos hcond, hv, containsKey_insertKey_ne _ _ _ _ (by decide)]
      exact containsKey_eraseKey_self _ _
    unfold add_record_fix
    constructor
    · rw [(fix_event_preserves _ _ (by decide)).2,
          (fix_date_preserves nowIso _ _ (by decide)).2, hF1, hv]
    · rw [(fix_event_preserves _ _ (by decide)).1,
          (fix_date_preserves nowIso _ _ (by decide)).1, hF2]
  · intro hdate hts v hv
    have hD0 : Dict.containsKey (fix_force r) "date".data = false := by
      rw [(fix_force_preserves r _ (by decide) (by decide)).1]
      exact hdate
    have hT0 : Dict.containsKey (fix_force r) "timestamp".data = true := by
      rw [(fix_force_preserves r _ (by decide) (by decide)).1]
      exact hts
    have hV0 : Dict.lookupKey (fix_force r) "timestamp".data = some v := by
      rw [(fix_force_preserves r _ (by decide) (by decide)).2]
      exact hv
    have hD1 : Dict.lookupKey (fix_date nowIso (fix_force r)) "date".data
        = some (date_from_ts_val nowIso v) := by
      unfold fix_date
      rw [if_pos ⟨by simp [hD0], hT0⟩, hV0]
      exact lookupKey_insertKey_self _ _ _
    unfold add_record_fix
    rw [(fix_event_preserves _ _ (by decide)).2, hD1]
  · intro hdate hts
    have hD0 : Dict.containsKey (fix_force r) "date".data = false := by
      rw [(fix_force_preserves r _ (by decide) (by decide)).1]
      exact hdate
    have hT0 : Dict.containsKey (fix_force r) "timestamp".data = false := by
      rw [(fix_force_preserves r _ (by decide) (by decide)).1]
      exact hts
    have hD1 : Dict.containsKey (fix_date nowIso (fix_force r)) "date".data = false := by
      unfold fix_date
      rw [if_neg (by simp [hT0])]
      exact hD0
    unfold add_record_fix
    rw [(fix_event_preserves _ _ (by decide)).1, hD1]
  · intro hevent
    have hE0 : Dict.containsKey (fix_date nowIso (fix_force r)) "event".data = false := by
      rw [(fix_date_preserves nowIso _ _ (by decide)).1,
          (fix_force_preserves r _ (by decide) (by decide)).1]
      exact hevent
    unfold add_record_fix fix_event
    rw [if_pos (by simp [hE0])]
    exact lookupKey_insertKey_self _ _ _

/-- Witness for add_record_effects: a record carrying value and timestamp
only, and a record carrying force only, pushed through the normalizer. -/
theorem add_record_effects_witness :
    (Dict.lookupKey
        (add_record_fix "now".data [("value".data, .q 2), ("timestamp".data, .i 5)])
        "force".data = some (.q 2) ∧
      Dict.containsKey
        (add_record_fix "now".data [("value".data, .q 2), ("timestamp".data, .i 5)])
        "value".data = false) ∧
    Dict.lookupKey
        (add_record_fix "now".data [("value".data, .q 2), ("timestamp".data, .i 5)])
        "date".data = some (date_from_ts_val "now".data (.i 5)) ∧
    Dict.containsKey (add_record_fix "now".data [("force".data, .q 1)])
        "date".data = false ∧
    Dict.lookupKey (add_record_fix "now".data [("force".data, .q 1)])
        "event".data = some (.q 0) := by
  have h1 := add_record_effects
    ⟨[], false, none, []⟩ "now".data 0 [("value".data, .q 2), ("timestamp".data, .i 5)]
  have h2 := add_record_effects ⟨[], false, none, []⟩ "now".data 0 [("force".data, .q 1)]
  refine ⟨?_, ?_, ?_, ?_⟩
  · have := h1.2.2.1 (by decide) (by decide)
    rwa [show Dict.lookupKey [("value".data, .q 2), ("timestamp".data, .i 5)] "value".data
          = some (.q 2) by decide] at this
  · exact h1.2.2.2.1 (by decide) (by decide) (.i 5) (by decide)
  · exact h2.2.2.2.2.1 (by decide) (by decide)
  · exact h2.2.2.2.2.2 (by decide)

/-- Claim C5, counterexample to the claim as stated: ending (with persist) an
active session whose buffer is empty raises the empty-session error, and the
error escapes BEFORE the line session_active = False runs, so the session is
still marked active after the call. -/
theorem end_session_empty_counterexample :
    (end_session ⟨[], true, some 1, []⟩ "now".data true).1.session_active = true ∧
    (end_session ⟨[], true, some 1, []⟩ "now".data true).2
      = .error .valueError := by
  exact ⟨rfl, rfl⟩

/-- Claim C5 (corrected): end_session on an inactive session is a no-op; with
persist false it always clears the buffer and marks inactive; with persist
true on an empty buffer the EmptySessionError propagates with NO state change
at all (no partial write, buffer still empty) but the session REMAINS marked
active; with persist true on a nonempty buffer whose records carry numeric
forces, the buffer is cleared, the session marked inactive and exactly one
session row is persisted. -/
theorem end_session_amended (st : DataStorage) (nowIso : List Char) (save : Bool) :
    (st.session_active = false → end_session st nowIso save = (st, .ok none)) ∧
    (st.session_active = true → save = false →
      end_session st nowIso save
        = ({ st with current_session_data := [], session_active := false },
           .ok none)) ∧
    (st.session_active = true → save = true → st.current_session_data = [] →
      end_session st nowIso save = (st, .error .valueError)) ∧
    (st.session_active = true → save = true → ¬ st.current_session_data = [] →
      ∀ forces, forcesOf st.current_session_data = some forces →
        (end_session st nowIso save).1.current_session_data = [] ∧
        (end_session st nowIso save).1.session_active = false ∧
        (end_session st nowIso save).1.db_sessions.length
          = st.db_sessions.length + 1 ∧
        ∃ res, (end_session st nowIso save).2 = .ok (some res)) := by
  refine ⟨?_, ?_, ?_, ?_⟩
  · intro h
    simp [end_session, h]
  · intro ha hs
    subst hs
    simp [end_session, ha]
  · intro ha hs he
    subst hs
    simp [end_session, ha, save_session, he]
  · intro ha hs hne forces hf
    subst hs
    simp [end_session, ha, save_session, hne, hf]

/-- Witness for end_session_amended, one concrete state per branch. -/
theorem end_session_amended_witness :
    end_session ⟨[], false, none, []⟩ "now".data true = (⟨[], false, none, []⟩, .ok none) ∧
    end_session ⟨[[("force".data, Val.q 2)]], true, some 1, []⟩ "now".data false
      = (⟨[], false, some 1, []⟩, .ok none) ∧
    end_session ⟨[], true, some 1, []⟩ "now".data true
      = (⟨[], true, some 1, []⟩, .error .valueError) ∧
    ((end_session ⟨[[("force".data, Val.q 2)]], true, some 1, []⟩ "now".data true).1.current_session_data = [] ∧
      (end_session ⟨[[("force".data, Val.q 2)]], true, some 1, []⟩ "now".data true).1.session_active = false ∧
      (end_session ⟨[[("force".data, Val.q 2)]], true, some 1, []⟩ "now".data true).1.db_sessions.length = 1 ∧
      ∃ res, (end_session ⟨[[("force".data, Val.q 2)]], true, some 1, []⟩ "now".data true).2 = .ok (some res)) := by
  refine ⟨?_, ?_, ?_, ?_⟩
  · exact (end_session_amended ⟨[], false, none, []⟩ "now".data true).1 rfl
  · exact (end_session_amended ⟨[[("force".data, Val.q 2)]], true, some 1, []⟩
      "now".data false).2.1 rfl rfl
  · exact (end_session_amended ⟨[], true, some 1, []⟩ "now".data true).2.2.1 rfl rfl rfl
  · exact (end_session_amended ⟨[[("force".data, Val.q 2)]], true, some 1, []⟩
      "now".data true).2.2.2 rfl rfl (by simp) [2] rfl

/-! ## String lemmas for the BLE round trip -/

theorem splitOnComma_no_comma (l : List Char) (h : ∀ c ∈ l, ¬ c = ',') :
    splitOnComma l = [l] := by
  induction l with
  | nil => rfl
  | cons c cs ih =>
    have hc : ¬ c = ',' := h c (by simp)
    unfold splitOnComma
    rw [ih (fun x hx => h x (by simp [hx]))]
    simp [hc]

theorem splitOnComma_append (a b : List Char) (h : ∀ c ∈ a, ¬ c = ',') :
    splitOnComma (a ++ ',' :: b) = a :: splitOnComma b := by
  induction a with
  | nil =>
    show splitOnComma (',' :: b) = [] :: splitOnComma b
    conv_lhs => rw [splitOnComma]
    cases hb : splitOnComma b with
    | nil => exact absurd hb (splitOnComma_ne_nil b)
    | cons f rest => simp
  | cons c cs ih =>
    have hc : ¬ c = ',' := h c (by simp)
    rw [List.cons_append]
    conv_lhs => rw [splitOnComma]
    rw [ih (fun x hx => h x (by simp [hx]))]
    simp [hc]

theorem dropWhile_eq_self_of (p : Char → Bool) (l : List Char)
    (h : ∀ c ∈ l, ¬ p c = true) : l.dropWhile p = l := by
  cases l with
  | nil => rfl
  | cons c cs => simp [List.dropWhile_cons, h c (by simp)]

theorem pyStrip_eq_self (l : List Char) (h : ∀ c ∈ l, ¬ isPySpace c = true) :
    pyStrip l = l := by
  unfold pyStrip
  rw [dropWhile_eq_self_of _ _ h,
      dropWhile_eq_self_of _ _ (fun c hc => h c (List.mem_reverse.mp hc)),
      List.reverse_reverse]

theorem digitChar_val (m : Nat) (h : m < 10) :
    digitVal (Nat.digitChar m) = m ∧ (Nat.digitChar m).isDigit = true := by
  interval_cases m <;> exact ⟨by decide, by decide⟩

theorem natReprAux_spec (fuel : Nat) : ∀ n, n ≤ fuel →
    (∀ acc, List.foldl (fun a c => 10 * a + digitVal c) acc (natReprAux fuel n)
      = acc * 10 ^ (natReprAux fuel n).length + n) ∧
    (∀ c ∈ natReprAux fuel n, c.isDigit = true) := by
  induction fuel with
  | zero =>
    intro n hn
    interval_cases n
    exact ⟨fun acc => by simp [natReprAux], fun c hc => by simp [natReprAux] at hc⟩
  | succ fuel ih =>
    intro n hn
    by_cases h0 : n = 0
    · subst h0
      exact ⟨fun acc => by simp [natReprAux], fun c hc => by simp [natReprAux] at hc⟩
    · have hlt : n / 10 < n := Nat.div_lt_self (Nat.pos_of_ne_zero h0) (by decide)
      have hfuel : n / 10 ≤ fuel := by omega
      have hmod : n % 10 < 10 := Nat.mod_lt n (by decide)
      obtain ⟨ihf, ihd⟩ := ih (n / 10) hfuel
      constructor
      · intro acc
        rw [natReprAux, if_neg h0, List.foldl_append]
        simp only [List.foldl_cons, List.foldl_nil]
        rw [ihf acc, (digitChar_val _ hmod).1, List.length_append,
            List.length_singleton]
        calc 10 * (acc * 10 ^ (natReprAux fuel (n / 10)).length + n / 10) + n % 10
            = acc * (10 ^ (natReprAux fuel (n / 10)).length * 10)
                + (10 * (n / 10) + n % 10) := by ring
          _ = acc * (10 ^ (natReprAux fuel (n / 10)).length * 10) + n := by
              rw [Nat.div_add_mod]
          _ = acc * 10 ^ ((natReprAux fuel (n / 10)).length + 1) + n := by
              rw [pow_succ]
      · intro c hc
        rw [natReprAux, if_neg h0] at hc
        rcases List.mem_append.mp hc with hc | hc
        · exact ihd c hc
        · rw [List.mem_singleton.mp hc]
          exact (digitChar_val _ hmod).2

theorem natRepr_spec (n : Nat) :
    natRepr n ≠ [] ∧ (∀ c ∈ natRepr n, c.isDigit = true) ∧
    decDigitsVal (natRepr n) = n := by
  by_cases h0 : n = 0
  · subst h0
    refine ⟨by decide, ?_, by decide⟩
    intro c hc
    rw [show natRepr 0 = [ '0' ] from rfl] at hc
    rw [List.mem_singleton.mp hc]
    decide
  · obtain ⟨hf, hd⟩ := natReprAux_spec n n le_rfl
    rw [show natRepr n = natReprAux n n from by rw [natRepr, if_neg h0]]
    refine ⟨?_, hd, ?_⟩
    · cases n with
      | zero => exact absurd rfl h0
      | succ m => simp [natReprAux]
    · rw [decDigitsVal, hf 0, zero_mul, zero_add]

theorem parsePyNatDigits_natRepr (n : Nat) : parsePyNatDigits (natRepr n) = some n := by
  obtain ⟨h1, h2, h3⟩ := natRepr_spec n
  unfold parsePyNatDigits
  rw [if_pos ⟨h1, List.all_eq_true.mpr h2⟩, h3]

theorem parsePyInt_not_sign (s : List Char) (h1 : s.head? ≠ some '-')
    (h2 : s.head? ≠ some '+') :
    parsePyInt s = (parsePyNatDigits s).map (fun n => (n : Int)) := by
  cases s with
  | nil => rfl
  | cons c rest =>
    have e1 : ¬ c = '-' := by simpa using h1
    have e2 : ¬ c = '+' := by simpa using h2
    show (if c = '-' then _ else if c = '+' then _ else _) = _
    rw [if_neg e1, if_neg e2]

theorem natRepr_head_not (n : Nat) (c : Char) (hc : ¬ c.isDigit = true) :
    (natRepr n).head? ≠ some c := by
  obtain ⟨h1, h2, _⟩ := natRepr_spec n
  cases hh : natRepr n with
  | nil => simp
  | cons a as =>
    simp only [List.head?, ne_eq, Option.some.injEq]
    intro he
    subst he
    exact hc (h2 a (by rw [hh]; simp))

theorem parsePyInt_intRepr (n : Int) : parsePyInt (intRepr n) = some n := by
  unfold intRepr
  by_cases hneg : n < 0
  · rw [if_pos hneg]
    rw [show parsePyInt ('-' :: natRepr n.natAbs)
        = (parsePyNatDigits (natRepr n.natAbs)).map (fun m => -(m : Int)) from rfl]
    rw [parsePyNatDigits_natRepr]
    show some (-(n.natAbs : Int)) = some n
    have e : -(n.natAbs : Int) = n := by omega
    rw [e]
  · rw [if_neg hneg,
        parsePyInt_not_sign _ (natRepr_head_not _ _ (by decide))
          (natRepr_head_not _ _ (by decide)),
        parsePyNatDigits_natRepr]
    show some ((n.natAbs : Nat) : Int) = some n
    have e : ((n.natAbs : Nat) : Int) = n := by omega
    rw [e]

theorem parsePyInt_single_digit (c : Char) (h : c.isDigit = true) :
    parsePyInt [c] = some ((digitVal c : Nat) : Int) := by
  have h1 : ([c] : List Char).head? ≠ some '-' := by
    simp only [List.head?, ne_eq, Option.some.injEq]
    intro e
    rw [e] at h
    exact absurd h (by decide)
  have h2 : ([c] : List Char).head? ≠ some '+' := by
    simp only [List.head?, ne_eq, Option.some.injEq]
    intro e
    rw [e] at h
    exact absurd h (by decide)
  rw [parsePyInt_not_sign _ h1 h2]
  unfold parsePyNatDigits
  rw [if_pos ⟨by simp, by simp [h]⟩]
  simp [decDigitsVal]

theorem splitAtDot_recover (l : List Char) :
    l = (splitAtDot l).1
      ++ (match (splitAtDot l).2 with | none => [] | some fp => '.' :: fp) := by
  induction l with
  | nil => rfl
  | cons c cs ih =>
    by_cases hc : c = '.'
    · subst hc
      rw [show splitAtDot ('.' :: cs) = ([], some cs) from rfl]
      rfl
    · rw [show splitAtDot (c :: cs)
          = (c :: (splitAtDot cs).1, (splitAtDot cs).2) from by
            rw [splitAtDot, if_neg hc]]
      rw [List.cons_append]
      exact congrArg (c :: ·) ih

theorem parsePyFloatUnsigned_chars (l : List Char) (q : ℚ)
    (h : parsePyFloatUnsigned l = some q) :
    ∀ c ∈ l, c = '.' ∨ c.isDigit = true := by
  have hrec := splitAtDot_recover l
  unfold parsePyFloatUnsigned at h
  cases hsd : splitAtDot l with
  | mk ip fpo =>
    rw [hsd] at h hrec
    cases fpo with
    | none =>
      simp only at h hrec
      obtain ⟨m, hm, _⟩ := Option.map_eq_some'.mp h
      unfold parsePyNatDigits at hm
      split at hm
      · rename_i hcond
        intro c hc
        rw [hrec, List.append_nil] at hc
        exact Or.inr (List.all_eq_true.mp hcond.2 c hc)
      · exact absurd hm (by simp)
    | some fp =>
      simp only at h hrec
      split at h
      · rename_i hcond
        intro c hc
        rw [hrec] at hc
        rcases List.mem_append.mp hc with hc | hc
        · exact Or.inr (List.all_eq_true.mp hcond.1 c hc)
        · rcases List.mem_cons.mp hc with rfl | hc
          · exact Or.inl rfl
          · exact Or.inr (List.all_eq_true.mp hcond.2.1 c hc)
      · exact absurd h (by simp)

theorem parsePyFloat_chars (s : List Char) (q : ℚ) (h : parsePyFloat s = some q) :
    ∀ c ∈ s, c = '-' ∨ c = '+' ∨ c = '.' ∨ c.isDigit = true := by
  cases s with
  | nil => intro c hc; simp at hc
  | cons c0 rest =>
    by_cases e1 : c0 = '-'
    · subst e1
      rw [show parsePyFloat ('-' :: rest)
          = (parsePyFloatUnsigned rest).map (fun q => -q) from rfl] at h
      obtain ⟨q', hq', _⟩ := Option.map_eq_some'.mp h
      intro c hc
      rcases List.mem_cons.mp hc with rfl | hc
      · exact Or.inl rfl
      · rcases parsePyFloatUnsigned_chars rest q' hq' c hc with h' | h'
        · exact Or.inr (Or.inr (Or.inl h'))
        · exact Or.inr (Or.inr (Or.inr h'))
    · by_cases e2 : c0 = '+'
      · subst e2
        rw [show parsePyFloat ('+' :: rest) = parsePyFloatUnsigned rest from by
            rw [parsePyFloat]; rw [if_neg (by decide), if_pos rfl]] at h
        intro c hc
        rcases List.mem_cons.mp hc with rfl | hc
        · exact Or.inr (Or.inl rfl)
        · rcases parsePyFloatUnsigned_chars rest q h c hc with h' | h'
          · exact Or.inr (Or.inr (Or.inl h'))
          · exact Or.inr (Or.inr (Or.inr h'))
      · rw [show parsePyFloat (c0 :: rest) = parsePyFloatUnsigned (c0 :: rest) from by
            rw [parsePyFloat]; rw [if_neg e1, if_neg e2]] at h
        intro c hc
        rcases parsePyFloatUnsigned_chars _ q h c hc with h' | h'
        · exact Or.inr (Or.inr (Or.inl h'))
        · exact Or.inr (Or.inr (Or.inr h'))

theorem float_chars_not_space_comma (c : Char)
    (h : c = '-' ∨ c = '+' ∨ c = '.' ∨ c.isDigit = true) :
    isPySpace c = false ∧ ¬ c = ',' := by
  rcases h with rfl | rfl | rfl | h
  · exact ⟨by decide, by decide⟩
  · exact ⟨by decide, by decide⟩
  · exact ⟨by decide, by decide⟩
  · constructor
    · by_contra hs
      rw [Bool.not_eq_false] at hs
      simp only [isPySpace, Bool.or_eq_true, decide_eq_true_eq] at hs
      rcases hs with ((((rfl | rfl) | rfl) | rfl) | rfl) | rfl <;>
        exact absurd h (by decide)
    · rintro rfl
      exact absurd h (by decide)

theorem intRepr_chars (n : Int) : ∀ c ∈ intRepr n, c = '-' ∨ c.isDigit = true := by
  unfold intRepr
  obtain ⟨_, hd, _⟩ := natRepr_spec n.natAbs
  split
  · intro c hc
    rcases List.mem_cons.mp hc with rfl | hc
    · exact Or.inl rfl
    · exact Or.inr (hd c hc)
  · intro c hc
    exact Or.inr (hd c hc)

theorem parse_built_line (tz : Int) (sid : Char) (hsid : sid.isDigit = true)
    (fS eS : List Char) (f e : ℚ) (ts : Int)
    (hf : parsePyFloat fS = some f) (he : parsePyFloat eS = some e) :
    CSVParser.parse tz (sid :: ',' :: (fS ++ ',' :: (intRepr ts ++ ',' :: eS)))
      = some { sensorId := ((digitVal sid : Nat) : Int), force := f, timestamp := ts,
               date := isoFromMillis (ts + tz), event := e } := by
  have hfns : ∀ c ∈ fS, isPySpace c = false ∧ ¬ c = ',' :=
    fun c hc => float_chars_not_space_comma c (parsePyFloat_chars fS f hf c hc)
  have hens : ∀ c ∈ eS, isPySpace c = false ∧ ¬ c = ',' :=
    fun c hc => float_chars_not_space_comma c (parsePyFloat_chars eS e he c hc)
  have hich : ∀ c ∈ intRepr ts, isPySpace c = false ∧ ¬ c = ',' := by
    intro c hc
    rcases intRepr_chars ts c hc with rfl | h
    · exact ⟨by decide, by decide⟩
    · exact float_chars_not_space_comma c (Or.inr (Or.inr (Or.inr h)))
  have hsidns : isPySpace sid = false ∧ ¬ sid = ',' :=
    float_chars_not_space_comma sid (Or.inr (Or.inr (Or.inr hsid)))
  have hstrip : pyStrip (sid :: ',' :: (fS ++ ',' :: (intRepr ts ++ ',' :: eS)))
      = sid :: ',' :: (fS ++ ',' :: (intRepr ts ++ ',' :: eS)) := by
    apply pyStrip_eq_self
    intro c hc
    rcases List.mem_cons.mp hc with rfl | hc
    · simp [hsidns.1]
    rcases List.mem_cons.mp hc with rfl | hc
    · decide
    rcases List.mem_append.mp hc with hc | hc
    · simp [(hfns c hc).1]
    rcases List.mem_cons.mp hc with rfl | hc
    · decide
    rcases List.mem_append.mp hc with hc | hc
    · simp [(hich c hc).1]
    rcases List.mem_cons.mp hc with rfl | hc
    · decide
    · simp [(hens c hc).1]
  have hsplit : splitOnComma (sid :: ',' :: (fS ++ ',' :: (intRepr ts ++ ',' :: eS)))
      = [[sid], fS, intRepr ts, eS] := by
    rw [show sid :: ',' :: (fS ++ ',' :: (intRepr ts ++ ',' :: eS))
        = [sid] ++ ',' :: (fS ++ ',' :: (intRepr ts ++ ',' :: eS)) from rfl]
    rw [splitOnComma_append [sid] _ (by
          intro c hc
          rw [List.mem_singleton.mp hc]
          exact hsidns.2)]
    rw [splitOnComma_append fS _ (fun c hc => (hfns c hc).2)]
    rw [splitOnComma_append (intRepr ts) _ (fun c hc => (hich c hc).2)]
    rw [splitOnComma_no_comma eS (fun c hc => (hens c hc).2)]
  simp only [CSVParser.parse]
  rw [hstrip, hsplit]
  rw [if_neg (by simp)]
  rw [if_neg (by norm_num)]
  simp only [List.getD_cons_zero, List.getD_cons_succ]
  rw [parsePyInt_single_digit sid hsid, hf, parsePyInt_intRepr, he]

/-- Claim C9 (confirmed): one well-formed frame yields exactly two records,
the channel-1 record first with force F_L and the left event flag, then the
channel-2 record with F_R and the right event flag, both carrying the same
receive-time millisecond timestamp. The hypotheses state that the float-repr
texts interpolated into the two f-strings re-parse to the decoded values,
which the Python float repr guarantees. -/
theorem ble_frame_two_records (frame : Frame) (tz timestampMs : Int)
    (fLS eLS fRS eRS : List Char)
    (hfL : parsePyFloat fLS = some frame.fL)
    (heL : parsePyFloat eLS = some frame.eventOnLeft)
    (hfR : parsePyFloat fRS = some frame.fR)
    (heR : parsePyFloat eRS = some frame.eventOnRight) :
    notification_records tz fLS eLS fRS eRS timestampMs
      = [{ sensorId := 1, force := frame.fL, timestamp := timestampMs,
           date := isoFromMillis (timestampMs + tz), event := frame.eventOnLeft },
         { sensorId := 2, force := frame.fR, timestamp := timestampMs,
           date := isoFromMillis (timestampMs + tz), event := frame.eventOnRight }] := by
  unfold notification_records notification_lines csv_left csv_right
  rw [List.filterMap_cons, List.filterMap_cons, List.filterMap_nil]
  rw [parse_built_line tz '1' (by decide) fLS eLS frame.fL frame.eventOnLeft
        timestampMs hfL heL,
      parse_built_line tz '2' (by decide) fRS eRS frame.fR frame.eventOnRight
        timestampMs hfR heR]
  rfl

/-- Witness for ble_frame_two_records: the frame (0.0, 1.0, 3.5, 4.5, 0.0)
with the literal repr texts and receive time 1000 ms. -/
theorem ble_frame_two_records_witness :
    notification_records 0 "3.5".data "1.0".data "4.5".data "0.0".data 1000
      = [{ sensorId := 1, force := 7/2, timestamp := 1000,
           date := "1970-01-01T00:00:01".data, event := 1 },
         { sensorId := 2, force := 9/2, timestamp := 1000,
           date := "1970-01-01T00:00:01".data, event := 0 }] := by
  have h := ble_frame_two_records ⟨0, 1, 7/2, 9/2, 0⟩ 0 1000
    "3.5".data "1.0".data "4.5".data "0.0".data
    (by with_unfolding_all decide) (by with_unfolding_all decide)
    (by with_unfolding_all decide) (by with_unfolding_all decide)
  rw [h]
  with_unfolding_all decide

/-! ## Lemmas on the episode grouping -/

theorem episode_groups_aux_eq (cur : List (Nat × DRow)) :
    ∀ (prev : Nat × DRow) (acc : List (Nat × DRow)),
      episode_groups_aux prev cur acc
        = (acc.reverse ++ (chunks_cont prev.1 cur).1) :: (chunks_cont prev.1 cur).2 := by
  induction cur with
  | nil =>
    intro prev acc
    simp [episode_groups_aux, chunks_cont]
  | cons p ps ih =>
    intro prev acc
    by_cases hadj : p.1 = prev.1 + 1
    · rw [show episode_groups_aux prev (p :: ps) acc
          = if p.1 = prev.1 + 1 then episode_groups_aux p ps (p :: acc)
            else acc.reverse :: episode_groups_aux p ps [p] from rfl,
          if_pos hadj, ih p (p :: acc),
          show chunks_cont prev.1 (p :: ps)
            = if p.1 = prev.1 + 1 then
                (p :: (chunks_cont p.1 ps).1, (chunks_cont p.1 ps).2)
              else ([], (p :: (chunks_cont p.1 ps).1) :: (chunks_cont p.1 ps).2)
            from rfl,
          if_pos hadj]
      simp
    · rw [show episode_groups_aux prev (p :: ps) acc
          = if p.1 = prev.1 + 1 then episode_groups_aux p ps (p :: acc)
            else acc.reverse :: episode_groups_aux p ps [p] from rfl,
          if_neg hadj, ih p [p],
          show chunks_cont prev.1 (p :: ps)
            = if p.1 = prev.1 + 1 then
                (p :: (chunks_cont p.1 ps).1, (chunks_cont p.1 ps).2)
              else ([], (p :: (chunks_cont p.1 ps).1) :: (chunks_cont p.1 ps).2)
            from rfl,
          if_neg hadj]
      simp

theorem last_idx_cons (a : Nat) (p : Nat × DRow) (xs : List (Nat × DRow)) :
    last_idx a (p :: xs) = last_idx p.1 xs := by
  cases xs with
  | nil => rfl
  | cons x xs =>
    unfold last_idx
    rw [List.getLast?_cons_cons]
    cases hg : (x :: xs).getLast? with
    | none => exact absurd hg (by simp)
    | some b => rfl

theorem run_from_chain (p : Nat × DRow) (g : List (Nat × DRow))
    (h : run_from p.1 g) : chunk_run (p :: g) := by
  induction g generalizing p with
  | nil => simp [chunk_run]
  | cons q gs ih =>
    unfold run_from at h
    rw [List.map_cons, List.length_cons, List.range'_succ] at h
    injection h with hq hrest
    have hq' : run_from q.1 gs := by
      unfold run_from
      rw [hrest, hq]
    have htail := ih q hq'
    unfold chunk_run at htail ⊢
    exact List.chain'_cons.mpr ⟨hq, htail⟩

theorem chunks_cont_spec (l : List (Nat × DRow)) : ∀ prev : Nat,
    ((chunks_cont prev l).1 ++ (chunks_cont prev l).2.flatten = l) ∧
    run_from prev (chunks_cont prev l).1 ∧
    (∀ g ∈ (chunks_cont prev l).2, g ≠ [] ∧ chunk_run g) ∧
    chunks_maximal (last_idx prev (chunks_cont prev l).1) (chunks_cont prev l).2 := by
  induction l with
  | nil =>
    intro prev
    exact ⟨rfl, by simp [chunks_cont, run_from], by simp [chunks_cont],
           by simp [chunks_cont, last_idx, chunks_maximal]⟩
  | cons p ps ih =>
    intro prev
    obtain ⟨ihA, ihB, ihC, ihD⟩ := ih p.1
    by_cases hadj : p.1 = prev + 1
    · rw [show chunks_cont prev (p :: ps)
          = if p.1 = prev + 1 then
              (p :: (chunks_cont p.1 ps).1, (chunks_cont p.1 ps).2)
            else ([], (p :: (chunks_cont p.1 ps).1) :: (chunks_cont p.1 ps).2)
          from rfl, if_pos hadj]
      refine ⟨?_, ?_, ihC, ?_⟩
      · rw [List.cons_append, ihA]
      · unfold run_from at ihB ⊢
        rw [List.map_cons, List.length_cons, List.range'_succ, ihB, hadj]
      · rw [last_idx_cons]
        exact ihD
    · rw [show chunks_cont prev (p :: ps)
          = if p.1 = prev + 1 then
              (p :: (chunks_cont p.1 ps).1, (chunks_cont p.1 ps).2)
            else ([], (p :: (chunks_cont p.1 ps).1) :: (chunks_cont p.1 ps).2)
          from rfl, if_neg hadj]
      refine ⟨?_, ?_, ?_, ?_⟩
      · rw [List.nil_append, List.flatten_cons, List.cons_append, ihA]
      · unfold run_from
        rfl
      · intro g hg
        rcases List.mem_cons.mp hg with rfl | hg
        · exact ⟨by simp, run_from_chain p _ ihB⟩
        · exact ihC g hg
      · show chunks_maximal prev ((p :: (chunks_cont p.1 ps).1) :: (chunks_cont p.1 ps).2)
        refine ⟨?_, ?_⟩
        · intro b hb
          have : p = b := by simpa using hb
          subst this
          exact hadj
        · rw [last_idx_cons]
          exact ihD

theorem chunks_maximal_chain (gs : List (List (Nat × DRow))) : ∀ i : Nat,
    (∀ g ∈ gs, g ≠ []) → chunks_maximal i gs →
    List.Chain' (fun g h => ∀ a ∈ g.getLast?, ∀ b ∈ h.head?, ¬ b.1 = a.1 + 1) gs ∧
    (∀ g0 ∈ gs.head?, ∀ b ∈ g0.head?, ¬ b.1 = i + 1) := by
  induction gs with
  | nil =>
    intro i _ _
    exact ⟨List.chain'_nil, by simp⟩
  | cons g gs ih =>
    intro i hne hm
    obtain ⟨h1, h2⟩ := hm
    obtain ⟨chain_tail, head_tail⟩ :=
      ih (last_idx i g) (fun x hx => hne x (by simp [hx])) h2
    constructor
    · cases gs with
      | nil => simp
      | cons g2 gs2 =>
        refine List.chain'_cons.mpr ⟨?_, chain_tail⟩
        intro a ha b hb
        have hlast : last_idx i g = a.1 := by
          unfold last_idx
          rw [Option.mem_def.mp ha]
        have := head_tail g2 (by simp) b hb
        rw [hlast] at this
        exact this
    · intro g0 hg0 b hb
      have : g = g0 := by simpa using hg0
      subst this
      exact h1 b hb

theorem episode_groups_spec (l : List (Nat × DRow)) :
    (episode_groups l).flatten = l ∧
    (∀ g ∈ episode_groups l, g ≠ [] ∧ chunk_run g) ∧
    List.Chain' (fun g h => ∀ a ∈ g.getLast?, ∀ b ∈ h.head?, ¬ b.1 = a.1 + 1)
      (episode_groups l) := by
  cases l with
  | nil => exact ⟨rfl, by simp [episode_groups], by simp [episode_groups]⟩
  | cons p ps =>
    obtain ⟨hA, hB, hC, hD⟩ := chunks_cont_spec ps p.1
    have heq : episode_groups (p :: ps)
        = (p :: (chunks_cont p.1 ps).1) :: (chunks_cont p.1 ps).2 := by
      show episode_groups_aux p ps [p]
          = (p :: (chunks_cont p.1 ps).1) :: (chunks_cont p.1 ps).2
      rw [episode_groups_aux_eq ps p [p]]
      rfl
    rw [heq]
    have hne : ∀ g ∈ (p :: (chunks_cont p.1 ps).1) :: (chunks_cont p.1 ps).2, g ≠ [] := by
      intro g hg
      rcases List.mem_cons.mp hg with rfl | hg
      · simp
      · exact (hC g hg).1
    have hmax : chunks_maximal p.1
        ((p :: (chunks_cont p.1 ps).1) :: (chunks_cont p.1 ps).2) := by
      refine ⟨?_, ?_⟩
      · intro b hb
        have : p = b := by simpa using hb
        subst this
        omega
      · rw [last_idx_cons]
        exact hD
    refine ⟨?_, ?_, ?_⟩
    · rw [List.flatten_cons, List.cons_append, hA]
    · intro g hg
      rcases List.mem_cons.mp hg with rfl | hg
      · exact ⟨by simp, run_from_chain p _ hB⟩
      · exact hC g hg
    · exact (chunks_maximal_chain _ p.1 hne hmax).1

/-! ## Insertion sort lemmas -/

theorem mem_insert_by_ts (a : Nat × DRow) (l : List (Nat × DRow)) (x : Nat × DRow) :
    x ∈ insert_by_ts a l ↔ x = a ∨ x ∈ l := by
  induction l with
  | nil => simp [insert_by_ts]
  | cons b bs ih =>
    unfold insert_by_ts
    by_cases hb : b.2.ts ≤ a.2.ts
    · rw [if_pos hb]
      simp only [List.mem_cons, ih]
      tauto
    · rw [if_neg hb]
      simp only [List.mem_cons]

theorem insert_by_ts_pairwise (a : Nat × DRow) (l : List (Nat × DRow))
    (h : List.Pairwise (fun u v => u.2.ts ≤ v.2.ts) l) :
    List.Pairwise (fun u v => u.2.ts ≤ v.2.ts) (insert_by_ts a l) := by
  induction l with
  | nil => simp [insert_by_ts]
  | cons b bs ih =>
    rw [List.pairwise_cons] at h
    obtain ⟨hb_all, hbs⟩ := h
    unfold insert_by_ts
    by_cases hb : b.2.ts ≤ a.2.ts
    · rw [if_pos hb]
      rw [List.pairwise_cons]
      refine ⟨?_, ih hbs⟩
      intro x hx
      rcases (mem_insert_by_ts a bs x).mp hx with rfl | hx
      · exact hb
      · exact hb_all x hx
    · rw [if_neg hb]
      push_neg at hb
      rw [List.pairwise_cons]
      refine ⟨?_, List.pairwise_cons.mpr ⟨hb_all, hbs⟩⟩
      intro x hx
      rcases List.mem_cons.mp hx with rfl | hx
      · exact le_of_lt hb
      · exact le_trans (le_of_lt hb) (hb_all x hx)

theorem sort_by_ts_aux_pairwise (l : List (Nat × DRow)) :
    ∀ acc, List.Pairwise (fun u v => u.2.ts ≤ v.2.ts) acc →
      List.Pairwise (fun u v => u.2.ts ≤ v.2.ts)
        (l.foldl (fun acc a => insert_by_ts a acc) acc) := by
  induction l with
  | nil => exact fun acc h => h
  | cons x xs ih =>
    intro acc h
    rw [List.foldl_cons]
    exact ih _ (insert_by_ts_pairwise x acc h)

theorem sort_by_ts_pairwise (l : List (Nat × DRow)) :
    List.Pairwise (fun u v => u.2.ts ≤ v.2.ts) (sort_by_ts l) :=
  sort_by_ts_aux_pairwise l [] (by simp)

theorem insert_by_ts_perm (a : Nat × DRow) (l : List (Nat × DRow)) :
    List.Perm (insert_by_ts a l) (a :: l) := by
  induction l with
  | nil => exact List.Perm.refl _
  | cons b bs ih =>
    unfold insert_by_ts
    by_cases hb : b.2.ts ≤ a.2.ts
    · rw [if_pos hb]
      exact List.Perm.trans (List.Perm.cons b ih) (List.Perm.swap a b bs)
    · rw [if_neg hb]

theorem sort_by_ts_aux_perm (l : List (Nat × DRow)) :
    ∀ acc, List.Perm (l.foldl (fun acc a => insert_by_ts a acc) acc) (acc ++ l) := by
  induction l with
  | nil => intro acc; simp
  | cons x xs ih =>
    intro acc
    rw [List.foldl_cons]
    refine List.Perm.trans (ih (insert_by_ts x acc)) ?_
    refine List.Perm.trans (List.Perm.append_right xs (insert_by_ts_perm x acc)) ?_
    rw [show (x :: acc) ++ xs = x :: (acc ++ xs) from rfl]
    exact (List.perm_middle).symm

theorem sort_by_ts_perm (l : List (Nat × DRow)) :
    List.Perm (sort_by_ts l) l := by
  have := sort_by_ts_aux_perm l []
  simpa [sort_by_ts] using this

theorem insert_by_ts_append (a : Nat × DRow) (acc : List (Nat × DRow))
    (h : ∀ b ∈ acc, b.2.ts ≤ a.2.ts) : insert_by_ts a acc = acc ++ [a] := by
  induction acc with
  | nil => rfl
  | cons b bs ih =>
    unfold insert_by_ts
    rw [if_pos (h b (by simp)), ih (fun x hx => h x (by simp [hx]))]
    rfl

theorem sort_by_ts_aux_of_pairwise (l : List (Nat × DRow)) :
    ∀ acc, List.Pairwise (fun u v => u.2.ts ≤ v.2.ts) (acc ++ l) →
      l.foldl (fun acc a => insert_by_ts a acc) acc = acc ++ l := by
  induction l with
  | nil => intro acc _; simp
  | cons x xs ih =>
    intro acc h
    rw [List.foldl_cons]
    have hx : insert_by_ts x acc = acc ++ [x] := by
      apply insert_by_ts_append
      intro b hb
      exact (List.pairwise_append.mp h).2.2 b hb x (by simp)
    rw [hx, ih (acc ++ [x]) (by rw [List.append_assoc]; simpa using h)]
    simp

theorem sort_by_ts_of_pairwise (l : List (Nat × DRow))
    (h : List.Pairwise (fun u v => u.2.ts ≤ v.2.ts) l) : sort_by_ts l = l := by
  have := sort_by_ts_aux_of_pairwise l [] (by simpa using h)
  simpa [sort_by_ts] using this

/-! ## Maximum of a nonempty fold -/

theorem foldl_max_mem (xs : List ℚ) : ∀ x : ℚ, xs.foldl max x ∈ x :: xs := by
  induction xs with
  | nil => intro x; simp
  | cons y ys ih =>
    intro x
    rw [List.foldl_cons]
    rcases List.mem_cons.mp (ih (max x y)) with h | h
    · rcases max_choice x y with e | e
      · rw [h, e]; simp
      · rw [h, e]; simp
    · simp [h]

theorem foldl_max_le (xs : List ℚ) : ∀ x : ℚ, ∀ y ∈ x :: xs, y ≤ xs.foldl max x := by
  induction xs with
  | nil =>
    intro x y hy
    rw [List.mem_singleton] at hy
    exact hy ▸ le_refl x
  | cons z zs ih =>
    intro x y hy
    rw [List.foldl_cons]
    have hx : x ≤ zs.foldl max (max x z) :=
      le_trans (le_max_left x z) (ih (max x z) (max x z) (List.mem_cons_self _ _))
    have hz : z ≤ zs.foldl max (max x z) :=
      le_trans (le_max_right x z) (ih (max x z) (max x z) (List.mem_cons_self _ _))
    rcases List.mem_cons.mp hy with h | h
    · exact h ▸ hx
    · rcases List.mem_cons.mp h with h2 | h2
      · exact h2 ▸ hz
      · exact ih (max x z) y (List.mem_cons_of_mem _ h2)

theorem mkEpisode_spec (g : List (Nat × DRow)) (hne : g ≠ []) :
    (∀ a ∈ g.head?, (mkEpisode g).ts = a.2.ts) ∧
    (mkEpisode g).force ∈ g.map (fun p => p.2.force) ∧
    (∀ p ∈ g, p.2.force ≤ (mkEpisode g).force) := by
  cases g with
  | nil => exact absurd rfl hne
  | cons p ps =>
    have hfold : (mkEpisode (p :: ps)).force
        = (ps.map (fun q => q.2.force)).foldl max p.2.force := by
      show ps.foldl (fun a q => max a q.2.force) p.2.force
          = (ps.map (fun q => q.2.force)).foldl max p.2.force
      rw [List.foldl_map]
    refine ⟨?_, ?_, ?_⟩
    · intro a ha
      have : p = a := by simpa using ha
      subst this
      rfl
    · rw [hfold, List.map_cons]
      exact foldl_max_mem (ps.map fun q => q.2.force) p.2.force
    · intro q hq
      rw [hfold]
      apply foldl_max_le (ps.map fun q => q.2.force) p.2.force
      rcases List.mem_cons.mp hq with rfl | hq
      · simp
      · simp only [List.mem_cons]
        right
        exact List.mem_map_of_mem _ hq

/-- Claim C1 (confirmed): on a channel whose records span at least five hours
the dashboard keeps every flagged row as one episode; on a shorter span it
sorts the flagged rows by timestamp (a permutation of them, nondecreasing in
timestamp) and merges maximal runs of rows with consecutive original indices:
the groups concatenate back to the sorted rows, each group is a nonempty run
of index-successors, no group could absorb the head of the next one, and each
episode carries the timestamp of the first member of its group and the
maximum force over the group. -/
theorem episode_segmentation_spec (rows : List DRow) :
    (is_overnight_data rows = true →
      generate_dashboard_events rows
        = (event_rows rows).map (fun p => { ts := p.2.ts, force := p.2.force })) ∧
    (is_overnight_data rows = false →
      generate_dashboard_events rows
        = (episode_groups (sort_by_ts (event_rows rows))).map mkEpisode ∧
      List.Pairwise (fun a b => a.2.ts ≤ b.2.ts) (sort_by_ts (event_rows rows)) ∧
      List.Perm (sort_by_ts (event_rows rows)) (event_rows rows) ∧
      (episode_groups (sort_by_ts (event_rows rows))).flatten
        = sort_by_ts (event_rows rows) ∧
      (∀ g ∈ episode_groups (sort_by_ts (event_rows rows)), g ≠ [] ∧ chunk_run g) ∧
      List.Chain' (fun g h => ∀ a ∈ g.getLast?, ∀ b ∈ h.head?, ¬ b.1 = a.1 + 1)
        (episode_groups (sort_by_ts (event_rows rows))) ∧
      (∀ g ∈ episode_groups (sort_by_ts (event_rows rows)),
        (∀ a ∈ g.head?, (mkEpisode g).ts = a.2.ts) ∧
        (mkEpisode g).force ∈ g.map (fun p => p.2.force) ∧
        (∀ p ∈ g, p.2.force ≤ (mkEpisode g).force))) := by
  constructor
  · intro hov
    unfold generate_dashboard_events
    rw [if_pos hov]
  · intro hov
    obtain ⟨hJ, hG, hChain⟩ := episode_groups_spec (sort_by_ts (event_rows rows))
    refine ⟨?_, sort_by_ts_pairwise _, sort_by_ts_perm _, hJ, hG, hChain, ?_⟩
    · unfold generate_dashboard_events
      rw [if_neg (by simp [hov])]
      rfl
    · intro g hg
      exact mkEpisode_spec g (hG g hg).1

/-- Witness for episode_segmentation_spec: a three-row demo channel (span two
seconds) and a two-row overnight channel (span exactly five hours). -/
theorem episode_segmentation_spec_witness :
    generate_dashboard_events [⟨3, 0, 1⟩, ⟨1, 1000, 0⟩, ⟨5, 2000, 1⟩]
      = (episode_groups (sort_by_ts
          (event_rows [⟨3, 0, 1⟩, ⟨1, 1000, 0⟩, ⟨5, 2000, 1⟩]))).map mkEpisode ∧
    generate_dashboard_events [⟨3, 0, 1⟩, ⟨4, 18000000, 1⟩]
      = (event_rows [⟨3, 0, 1⟩, ⟨4, 18000000, 1⟩]).map
          (fun p => { ts := p.2.ts, force := p.2.force }) :=
  ⟨((episode_segmentation_spec _).2 (by with_unfolding_all decide)).1,
   (episode_segmentation_spec _).1 (by with_unfolding_all decide)⟩

/-! ## Lemmas for the re-segmentation experiment (claim C7) -/

theorem mem_enumFrom_snd (xs : List DRow) :
    ∀ (n : Nat) (p : Nat × DRow), p ∈ xs.enumFrom n → p.2 ∈ xs := by
  induction xs with
  | nil => intro n p hp; simp [List.enumFrom] at hp
  | cons x l ih =>
    intro n p hp
    rw [show (x :: l).enumFrom n = (n, x) :: l.enumFrom (n + 1) from rfl] at hp
    rcases List.mem_cons.mp hp with rfl | hp
    · simp
    · exact List.mem_cons_of_mem _ (ih (n + 1) p hp)

theorem event_rows_all (l : List DRow) (h : ∀ r ∈ l, r.event = 1) :
    event_rows l = l.enum := by
  unfold event_rows
  apply List.filter_eq_self.mpr
  intro p hp
  have : p.2 ∈ l := mem_enumFrom_snd l 0 p hp
  simp [h p.2 this]

theorem enumFrom_pairwise (l : List DRow) :
    ∀ n, List.Pairwise (fun a b : DRow => a.ts ≤ b.ts) l →
      List.Pairwise (fun u v : Nat × DRow => u.2.ts ≤ v.2.ts) (l.enumFrom n) := by
  induction l with
  | nil => intro n _; simp [List.enumFrom]
  | cons x xs ih =>
    intro n h
    rw [List.pairwise_cons] at h
    rw [show (x :: xs).enumFrom n = (n, x) :: xs.enumFrom (n + 1) from rfl,
        List.pairwise_cons]
    refine ⟨?_, ih (n + 1) h.2⟩
    intro b hb
    exact h.1 b.2 (mem_enumFrom_snd xs (n + 1) b hb)

theorem episode_groups_aux_enumFrom (xs : List DRow) :
    ∀ (n : Nat) (prev : Nat × DRow) (acc : List (Nat × DRow)), prev.1 = n →
      episode_groups_aux prev (xs.enumFrom (n + 1)) acc
        = [acc.reverse ++ xs.enumFrom (n + 1)] := by
  induction xs with
  | nil => intro n prev acc _; simp [List.enumFrom, episode_groups_aux]
  | cons x xs ih =>
    intro n prev acc h
    rw [show (x :: xs).enumFrom (n + 1) = (n + 1, x) :: xs.enumFrom (n + 2) from rfl]
    rw [show episode_groups_aux prev ((n + 1, x) :: xs.enumFrom (n + 2)) acc
        = if (n + 1, x).1 = prev.1 + 1 then
            episode_groups_aux (n + 1, x) (xs.enumFrom (n + 2)) ((n + 1, x) :: acc)
          else acc.reverse :: episode_groups_aux (n + 1, x) (xs.enumFrom (n + 2))
            [(n + 1, x)] from rfl]
    rw [if_pos (by simp [h])]
    rw [ih (n + 1) (n + 1, x) ((n + 1, x) :: acc) rfl]
    simp

theorem episode_groups_enum_cons (r : DRow) (rs : List DRow) :
    episode_groups ((r :: rs).enum) = [(0, r) :: rs.enumFrom 1] := by
  rw [show (r :: rs).enum = (0, r) :: rs.enumFrom 1 from rfl]
  show episode_groups_aux (0, r) (rs.enumFrom 1) [(0, r)] = _
  rw [show (1 : Nat) = 0 + 1 from rfl]
  rw [episode_groups_aux_enumFrom rs 0 (0, r) [(0, r)] rfl]
  simp

theorem demo_segment_pairwise (rows : List DRow) :
    List.Pairwise (fun e1 e2 : Episode => e1.ts ≤ e2.ts) (demo_segment rows) := by
  unfold demo_segment
  obtain ⟨hJ, hG, _⟩ := episode_groups_spec (sort_by_ts (event_rows rows))
  have hS : List.Pairwise (fun u v : Nat × DRow => u.2.ts ≤ v.2.ts)
      (episode_groups (sort_by_ts (event_rows rows))).flatten := by
    rw [hJ]
    exact sort_by_ts_pairwise _
  rw [List.pairwise_flatten] at hS
  obtain ⟨-, hlift⟩ := hS
  rw [List.pairwise_map]
  refine hlift.imp_of_mem ?_
  intro g1 g2 hg1 hg2 hR
  obtain ⟨hne1, -⟩ := hG g1 hg1
  obtain ⟨hne2, -⟩ := hG g2 hg2
  cases g1 with
  | nil => exact absurd rfl hne1
  | cons p1 t1 =>
    cases g2 with
    | nil => exact absurd rfl hne2
    | cons p2 t2 => exact hR p1 (by simp) p2 (by simp)

/-- Claim C7, counterexample to the claim as stated: the three-row channel
below segments into two episodes, but feeding those two episodes back through
demo segmentation yields ONE episode, not two: the re-fed episodes occupy
consecutive dataframe indices, so the index-adjacency rule merges them all. -/
theorem segmenter_idempotence_counterexample :
    (demo_segment [⟨3, 0, 1⟩, ⟨4, 1000, 0⟩, ⟨5, 2000, 1⟩]).length = 2 ∧
    (demo_segment (episodes_as_rows
        (demo_segment [⟨3, 0, 1⟩, ⟨4, 1000, 0⟩, ⟨5, 2000, 1⟩]))).length = 1 := by
  constructor <;> with_unfolding_all decide

/-- Claim C7 (corrected): re-feeding the episodes of a demo segmentation, all
flagged 1.0, does not preserve the episode count: the re-fed rows sit at
consecutive indices 0..m-1 and all carry the event flag, so the whole set
merges into exactly ONE episode whenever the first segmentation was nonempty
(and into zero when it was empty). The count is preserved only for at most
one episode. -/
theorem segmenter_refeed_merges_all (rows : List DRow) :
    (demo_segment rows = [] →
      demo_segment (episodes_as_rows (demo_segment rows)) = []) ∧
    (¬ demo_segment rows = [] →
      (demo_segment (episodes_as_rows (demo_segment rows))).length = 1) := by
  constructor
  · intro h
    rw [h]
    rfl
  · intro hne
    have hall : ∀ r ∈ episodes_as_rows (demo_segment rows), r.event = 1 := by
      intro r hr
      obtain ⟨e, -, rfl⟩ := List.mem_map.mp hr
      rfl
    have hpw : List.Pairwise (fun a b : DRow => a.ts ≤ b.ts)
        (episodes_as_rows (demo_segment rows)) := by
      rw [episodes_as_rows, List.pairwise_map]
      exact demo_segment_pairwise rows
    have hpw2 : List.Pairwise (fun u v : Nat × DRow => u.2.ts ≤ v.2.ts)
        ((episodes_as_rows (demo_segment rows)).enum) :=
      enumFrom_pairwise _ 0 hpw
    conv_lhs => rw [demo_segment]
    rw [event_rows_all _ hall, sort_by_ts_of_pairwise _ hpw2]
    obtain ⟨r, rs, hsplit⟩ : ∃ r rs, episodes_as_rows (demo_segment rows) = r :: rs := by
      cases h2 : episodes_as_rows (demo_segment rows) with
      | nil =>
        rw [episodes_as_rows] at h2
        exact absurd (List.map_eq_nil_iff.mp h2) hne
      | cons r rs => exact ⟨r, rs, rfl⟩
    rw [hsplit, episode_groups_enum_cons r rs]
    simp

/-- Witness for segmenter_refeed_merges_all: an empty-event channel and a
single-event channel. -/
theorem segmenter_refeed_merges_all_witness :
    demo_segment (episodes_as_rows (demo_segment [⟨3, 0, 0⟩])) = [] ∧
    (demo_segment (episodes_as_rows (demo_segment [⟨3, 0, 1⟩]))).length = 1 :=
  ⟨(segmenter_refeed_merges_all [⟨3, 0, 0⟩]).1 (by with_unfolding_all decide),
   (segmenter_refeed_merges_all [⟨3, 0, 1⟩]).2 (by with_unfolding_all decide)⟩
